import Mathlib

/-!
# NTC thermistor temperature conversion (`NTC.cpp`, `NTC.h`)

A shallow embedding of the `NTC` class: the constructor `NTC::NTC` and the
method `NTC::Temperature`, followed by theorems about them.

## Number model

* `int` is `Int`.  The only integer arithmetic in the source is
  `1023 - ADC_result`, which cannot overflow for a reading of a 10-bit ADC.
* `double` is an abstract carrier `D` with the operations the source uses
  (`DoubleArith D`): `+ - * /`, unary minus, conversion from `int`, decimal
  literals, `log` and the constant `INFINITY`.  The embedding of the program is
  polymorphic in `D` and computable; statements that involve no arithmetic law
  are proved for every `D`.
* `Dbl` is one such carrier: the reals extended with `+∞`, `-∞` and NaN.  Finite
  values are computed exactly (no rounding, no overflow, no underflow), special
  values follow the IEEE-754 rules, and zero carries no sign (a zero divisor is
  read as `+0`).  Statements about the example object, whose values stay far from
  every rounding boundary, are proved over `Dbl`.
* `F64` is the carrier that rounds: IEEE-754 binary64 with round to nearest,
  ties to even, subnormal numbers, overflow to the infinities, NaN, and a zero
  without sign.  Every finite result of `+ - * /`, of a conversion from `int`,
  of a decimal literal and of `log` is the exact real result rounded.
  Statements that quantify over all profiles and whose truth depends on
  rounding, underflow or overflow are settled over `F64`.
-/

/-- The operations on `double` that `NTC.cpp` uses. -/
class DoubleArith (D : Type) extends Add D, Sub D, Mul D, Div D, Neg D, IntCast D,
    OfScientific D where
  /-- The natural logarithm `log` of `math.h`. -/
  log : D → D
  /-- The constant `INFINITY` of `math.h`. -/
  INFINITY : D

/-- Private data members of `class NTC` (`NTC.h`, lines 76-82). -/
structure NTC (D : Type) where
  _APin : Int
  _RRef : D
  _NTC_R25 : D
  _NTC_A1 : D
  _NTC_B1 : D
  _NTC_C1 : D
  _NTC_D1 : D

/-- The constructor `NTC::NTC` (`NTC.cpp`, lines 67-76): seven assignments.
Inside the namespace of the structure the name `NTC` is taken, hence `ctor`. -/
def NTC.ctor {D : Type} (APin : Int) (RRef NTC_R25 NTC_A1 NTC_B1 NTC_C1 NTC_D1 : D) : NTC D :=
  { _APin := APin
    _RRef := RRef
    _NTC_R25 := NTC_R25
    _NTC_A1 := NTC_A1
    _NTC_B1 := NTC_B1
    _NTC_C1 := NTC_C1
    _NTC_D1 := NTC_D1 }

/-- The local `Resistance` of `NTC::Temperature` (`NTC.cpp`, line 103):
`_RRef * ADC_result / (1023 - ADC_result)`, the subtraction done on `int`. -/
def NTC.Resistance {D : Type} [DoubleArith D] (self : NTC D) (ADC_result : Int) : D :=
  self._RRef * (ADC_result : D) / ((1023 - ADC_result : Int) : D)

/-- The method `NTC::Temperature` (`NTC.cpp`, lines 87-117).  The hardware is the
function `analogRead` from pin to reading; the result is the returned `double`
together with the object after the call. -/
def NTC.Temperature {D : Type} [DoubleArith D] (self : NTC D) (analogRead : Int → Int) :
    D × NTC D :=
  let ADC_result : Int := analogRead self._APin
  let Result : D :=
    if ADC_result = 1023 then
      DoubleArith.INFINITY
    else if ADC_result = 0 then
      -DoubleArith.INFINITY
    else
      let Resistance : D := self.Resistance ADC_result
      let LnR_R25 : D := DoubleArith.log (Resistance / self._NTC_R25)
      let Result : D := self._NTC_A1
      let Result : D := Result + self._NTC_B1 * LnR_R25
      let LnR_R25 : D := LnR_R25 * LnR_R25
      let Result : D := Result + self._NTC_C1 * LnR_R25
      let LnR_R25 : D := LnR_R25 * LnR_R25
      let Result : D := Result + self._NTC_D1 * LnR_R25
      let Result : D := ((1 : Int) : D) / Result
      Result - 273.15
  (Result, self)

/-- The object of the example in the class comment (`NTC.cpp`, line 63):
`NTC TempToMeasure(A0, 4700, 4700, 3.354016e-3, 2.569355e-4, 2.626311e-6, 0.675278e-7)`.
The pin constant `A0` comes from `Arduino.h` and is a parameter. -/
def TempToMeasure {D : Type} [DoubleArith D] (A0 : Int) : NTC D :=
  NTC.ctor A0 ((4700 : Int) : D) ((4700 : Int) : D)
    3.354016e-3 2.569355e-4 2.626311e-6 0.675278e-7

/-- The `n`-fold product `x * x * ... * x`, associated to the left. -/
def DoubleArith.powN {D : Type} [DoubleArith D] (x : D) : Nat → D
  | 0 => ((1 : Int) : D)
  | 1 => x
  | n + 2 => DoubleArith.powN x (n + 1) * x

/-- The formula of the class comment (`NTC.cpp`, line 47), written from the
comment and not from the code:
`T = 1 / (A1 + B1 * x + C1 * x^2 + D1 * x^3) - 273.15` with `x = log (Rntc / R25)`. -/
def NTC.DocumentedTemperature {D : Type} [DoubleArith D] (self : NTC D) (ADC_result : Int) : D :=
  let x : D := DoubleArith.log (self.Resistance ADC_result / self._NTC_R25)
  ((1 : Int) : D) /
      (self._NTC_A1 + self._NTC_B1 * x + self._NTC_C1 * DoubleArith.powN x 2
        + self._NTC_D1 * DoubleArith.powN x 3)
    - 273.15

/-- The value of the local `Result` of `NTC::Temperature` after line 110 of
`NTC.cpp`, that is the sum accumulated by lines 103-110 before line 111 takes
its reciprocal. -/
def NTC.InverseKelvinSum {D : Type} [DoubleArith D] (self : NTC D) (ADC_result : Int) : D :=
  let Resistance : D := self.Resistance ADC_result
  let LnR_R25 : D := DoubleArith.log (Resistance / self._NTC_R25)
  let Result : D := self._NTC_A1
  let Result : D := Result + self._NTC_B1 * LnR_R25
  let LnR_R25 : D := LnR_R25 * LnR_R25
  let Result : D := Result + self._NTC_C1 * LnR_R25
  let LnR_R25 : D := LnR_R25 * LnR_R25
  let Result : D := Result + self._NTC_D1 * LnR_R25
  Result

/-- The sum under the fraction bar of the class comment (`NTC.cpp`, line 47),
written from the comment and not from the code:
`A1 + B1 * x + C1 * x^2 + D1 * x^3` with `x = log (Rntc / R25)`. -/
def NTC.DocumentedSum {D : Type} [DoubleArith D] (self : NTC D) (ADC_result : Int) : D :=
  let x : D := DoubleArith.log (self.Resistance ADC_result / self._NTC_R25)
  self._NTC_A1 + self._NTC_B1 * x + self._NTC_C1 * DoubleArith.powN x 2
    + self._NTC_D1 * DoubleArith.powN x 3

/-! ## The carrier `Dbl` -/

/-- Real numbers extended with the IEEE-754 special values. -/
inductive Dbl where
  | fin (r : ℝ)
  | pinf
  | ninf
  | nan

namespace Dbl

/-- Addition: exact on finite values, `∞ + (-∞)` is NaN. -/
noncomputable def add : Dbl → Dbl → Dbl
  | fin a, fin b => fin (a + b)
  | fin _, pinf => pinf
  | fin _, ninf => ninf
  | pinf, fin _ => pinf
  | pinf, pinf => pinf
  | ninf, fin _ => ninf
  | ninf, ninf => ninf
  | _, _ => nan

/-- Unary minus. -/
noncomputable def neg : Dbl → Dbl
  | fin a => fin (-a)
  | pinf => ninf
  | ninf => pinf
  | nan => nan

/-- Subtraction is addition of the negated operand. -/
noncomputable def sub (x y : Dbl) : Dbl := add x (neg y)

/-- The infinity with the sign of `a`, NaN when `a = 0` (used for `a * ∞`). -/
noncomputable def signedInf (a : ℝ) : Dbl :=
  if 0 < a then pinf else if a < 0 then ninf else nan

/-- Multiplication: exact on finite values, `0 * ∞` is NaN. -/
noncomputable def mul : Dbl → Dbl → Dbl
  | fin a, fin b => fin (a * b)
  | fin a, pinf => signedInf a
  | fin a, ninf => signedInf (-a)
  | pinf, fin b => signedInf b
  | ninf, fin b => signedInf (-b)
  | pinf, pinf => pinf
  | pinf, ninf => ninf
  | ninf, pinf => ninf
  | ninf, ninf => pinf
  | _, _ => nan

/-- Division: exact on finite values with a non-zero divisor; a zero divisor
is `+0`, so `a / 0` is the infinity with the sign of `a` and `0 / 0` is NaN;
a finite value over an infinity is `0`; `∞ / ∞` is NaN. -/
noncomputable def div : Dbl → Dbl → Dbl
  | fin a, fin b => if b = 0 then signedInf a else fin (a / b)
  | fin _, pinf => fin 0
  | fin _, ninf => fin 0
  | pinf, fin b => if 0 ≤ b then pinf else ninf
  | ninf, fin b => if 0 ≤ b then ninf else pinf
  | _, _ => nan

/-- Natural logarithm: `log 0 = -∞`, NaN on negative arguments, `log ∞ = ∞`. -/
noncomputable def log : Dbl → Dbl
  | fin a => if 0 < a then fin (Real.log a) else if a = 0 then ninf else nan
  | pinf => pinf
  | _ => nan

noncomputable instance : DoubleArith Dbl where
  add := add
  sub := sub
  mul := mul
  div := div
  neg := neg
  intCast := fun n => fin (n : ℝ)
  ofScientific := fun m s e => fin (OfScientific.ofScientific m s e)
  log := log
  INFINITY := pinf

/-- An infinity of either sign. -/
def isInfinite (x : Dbl) : Prop := x = pinf ∨ x = ninf

/-- The comparison `<=` on `double`: false as soon as one side is NaN. -/
def le : Dbl → Dbl → Prop
  | fin a, fin b => a ≤ b
  | ninf, fin _ => True
  | ninf, ninf => True
  | ninf, pinf => True
  | fin _, pinf => True
  | pinf, pinf => True
  | _, _ => False

instance : LE Dbl := ⟨le⟩

end Dbl

/-! ## The carrier `F64`: IEEE-754 binary64 with rounding -/

/-- Real numbers extended with the IEEE-754 special values; the operations of
`F64` round every finite result to binary64 (53-bit significand, exponents
`-1022 .. 1023`, subnormals, round to nearest with ties to even). -/
inductive F64 where
  | fin (r : ℝ)
  | pinf
  | ninf
  | nan

namespace F64

/-- The nearest integer, ties to the even one. -/
noncomputable def roundEven (t : ℝ) : ℤ :=
  if Int.fract t < 1 / 2 then ⌊t⌋
  else if 1 / 2 < Int.fract t then ⌊t⌋ + 1
  else if Even ⌊t⌋ then ⌊t⌋ else ⌊t⌋ + 1

/-- The binary exponent of a positive real, not below the exponent `-1022` of
the subnormal numbers. -/
noncomputable def expo (r : ℝ) : ℤ := max (Int.log 2 r) (-1022)

/-- The spacing of binary64 numbers in the binade of `r`: `2 ^ (expo r - 52)`. -/
noncomputable def ulp (r : ℝ) : ℝ := (2 : ℝ) ^ (expo r - 52)

/-- The binary64 number nearest to a non-negative real (before the overflow
test): the nearest multiple of the spacing, ties to even. -/
noncomputable def rndPos (r : ℝ) : ℝ := (roundEven (r / ulp r) : ℝ) * ulp r

/-- The binary64 number nearest to a real (before the overflow test), by sign
and magnitude. -/
noncomputable def rnd (r : ℝ) : ℝ := if r < 0 then -rndPos (-r) else rndPos r

/-- Rounding of an exact result to binary64: a magnitude that rounds to
`2 ^ 1024` or more overflows to the infinity of its sign. -/
noncomputable def round (r : ℝ) : F64 :=
  if (2 : ℝ) ^ (1024 : ℤ) ≤ rnd r then pinf
  else if rnd r ≤ -(2 : ℝ) ^ (1024 : ℤ) then ninf
  else fin (rnd r)

/-- The infinity with the sign of `a`, NaN when `a = 0` (used for `a * ∞`). -/
noncomputable def signedInf (a : ℝ) : F64 :=
  if 0 < a then pinf else if a < 0 then ninf else nan

/-- Addition: the exact sum rounded, `∞ + (-∞)` is NaN. -/
noncomputable def add : F64 → F64 → F64
  | fin a, fin b => round (a + b)
  | fin _, pinf => pinf
  | fin _, ninf => ninf
  | pinf, fin _ => pinf
  | pinf, pinf => pinf
  | ninf, fin _ => ninf
  | ninf, ninf => ninf
  | _, _ => nan

/-- Unary minus (exact). -/
noncomputable def neg : F64 → F64
  | fin a => fin (-a)
  | pinf => ninf
  | ninf => pinf
  | nan => nan

/-- Subtraction is addition of the negated operand. -/
noncomputable def sub (x y : F64) : F64 := add x (neg y)

/-- Multiplication: the exact product rounded, `0 * ∞` is NaN. -/
noncomputable def mul : F64 → F64 → F64
  | fin a, fin b => round (a * b)
  | fin a, pinf => signedInf a
  | fin a, ninf => signedInf (-a)
  | pinf, fin b => signedInf b
  | ninf, fin b => signedInf (-b)
  | pinf, pinf => pinf
  | pinf, ninf => ninf
  | ninf, pinf => ninf
  | ninf, ninf => pinf
  | _, _ => nan

/-- Division: the exact quotient rounded; a zero divisor is `+0`, so `a / 0` is
the infinity with the sign of `a` and `0 / 0` is NaN; a finite value over an
infinity is `0`; `∞ / ∞` is NaN. -/
noncomputable def div : F64 → F64 → F64
  | fin a, fin b => if b = 0 then signedInf a else round (a / b)
  | fin _, pinf => fin 0
  | fin _, ninf => fin 0
  | pinf, fin b => if 0 ≤ b then pinf else ninf
  | ninf, fin b => if 0 ≤ b then ninf else pinf
  | _, _ => nan

/-- Natural logarithm, correctly rounded: `log 0 = -∞`, NaN on negative
arguments, `log ∞ = ∞`. -/
noncomputable def log : F64 → F64
  | fin a => if 0 < a then round (Real.log a) else if a = 0 then ninf else nan
  | pinf => pinf
  | _ => nan

noncomputable instance : DoubleArith F64 where
  add := add
  sub := sub
  mul := mul
  div := div
  neg := neg
  intCast := fun n => round (n : ℝ)
  ofScientific := fun m s e => round (OfScientific.ofScientific m s e)
  log := log
  INFINITY := pinf

/-- A real number that is a finite binary64 value. -/
def IsDouble (r : ℝ) : Prop := rnd r = r ∧ |r| < (2 : ℝ) ^ (1024 : ℤ)

/-- A strictly positive value: a positive finite number or `+∞`. -/
def IsPos (x : F64) : Prop := x = pinf ∨ ∃ v : ℝ, x = fin v ∧ 0 < v

/-- A finite value between two real bounds. -/
def Between (x : F64) (lo hi : ℝ) : Prop := ∃ t : ℝ, x = fin t ∧ lo ≤ t ∧ t ≤ hi

end F64

/-! ## Real-number readings of the computation -/

/-- The real number whose logarithm is taken: `RRef * adc / (1023 - adc) / R25`. -/
noncomputable def lnArg (RRef R25 : ℝ) (adc : Int) : ℝ :=
  RRef * (adc : ℝ) / ((1023 - adc : Int) : ℝ) / R25

/-- The sum the code accumulates, over the reals: the last power is the fourth. -/
noncomputable def quarticSum (A1 B1 C1 D1 x : ℝ) : ℝ :=
  A1 + B1 * x + C1 * x ^ 2 + D1 * x ^ 4

/-- The sum of the class comment, over the reals: the last power is the third. -/
noncomputable def cubicSum (A1 B1 C1 D1 x : ℝ) : ℝ :=
  A1 + B1 * x + C1 * x ^ 2 + D1 * x ^ 3

/-- The value `x = ln (Rntc / R25)` of the example object at reading `adc`. -/
noncomputable def refX (adc : Int) : ℝ :=
  Real.log (lnArg 4700 4700 adc)

/-- The sum accumulated by the code for the example object. -/
noncomputable def refSum (x : ℝ) : ℝ :=
  quarticSum 3.354016e-3 2.569355e-4 2.626311e-6 0.675278e-7 x

/-! ## Arithmetic of `Dbl` on finite values -/

namespace Dbl

@[simp] theorem fin_add_fin (a b : ℝ) : (fin a + fin b : Dbl) = fin (a + b) := rfl

@[simp] theorem fin_mul_fin (a b : ℝ) : (fin a * fin b : Dbl) = fin (a * b) := rfl

@[simp] theorem fin_sub_fin (a b : ℝ) : (fin a - fin b : Dbl) = fin (a - b) := by
  show fin (a + -b) = fin (a - b)
  rw [sub_eq_add_neg]

theorem fin_div_fin (a b : ℝ) (hb : b ≠ 0) : (fin a / fin b : Dbl) = fin (a / b) := by
  show (if b = 0 then signedInf a else fin (a / b)) = fin (a / b)
  rw [if_neg hb]

theorem log_fin (a : ℝ) (ha : 0 < a) : (DoubleArith.log (fin a) : Dbl) = fin (Real.log a) := by
  show (if 0 < a then fin (Real.log a) else if a = 0 then ninf else nan) = fin (Real.log a)
  rw [if_pos ha]

@[simp] theorem intCast_eq (n : Int) : ((n : Int) : Dbl) = fin (n : ℝ) := rfl

@[simp] theorem ofScientific_eq (m : Nat) (s : Bool) (e : Nat) :
    (OfScientific.ofScientific m s e : Dbl) = fin (OfScientific.ofScientific m s e) := rfl

@[simp] theorem INFINITY_eq : (DoubleArith.INFINITY : Dbl) = pinf := rfl

@[simp] theorem neg_pinf : (-pinf : Dbl) = ninf := rfl

/-- Squaring twice is the left-associated product of four factors. -/
theorem sq_sq_eq_powN (x : Dbl) : (x * x) * (x * x) = DoubleArith.powN x 4 := by
  show mul (mul x x) (mul x x) = mul (mul (mul x x) x) x
  cases x with
  | fin a => simp only [mul]; congr 1; ring
  | pinf => simp [mul, signedInf]
  | ninf => simp [mul, signedInf]
  | nan => simp [mul]

end Dbl

/-- The resistance of a profile with real `RRef`, for a reading below 1023. -/
theorem Resistance_fin (self : NTC Dbl) (RRef : ℝ) (hR : self._RRef = Dbl.fin RRef) (adc : Int)
    (h1 : adc < 1023) :
    self.Resistance adc = Dbl.fin (RRef * (adc : ℝ) / ((1023 - adc : Int) : ℝ)) := by
  have hd : (((1023 - adc : Int) : ℝ)) ≠ 0 := by
    have : (0 : Int) < 1023 - adc := by omega
    exact_mod_cast this.ne'
  simp only [NTC.Resistance, hR, Dbl.intCast_eq, Dbl.fin_mul_fin]
  exact Dbl.fin_div_fin _ _ hd

/-- The value computed for a real profile on a reading inside `(0, 1023)`, when
the argument of the logarithm is positive and the accumulated sum is not zero. -/
theorem Temperature_fin (pin : Int) (RRef R25 A1 B1 C1 D1 : ℝ) (analogRead : Int → Int)
    (h0 : 0 < analogRead pin) (h1 : analogRead pin < 1023)
    (hx : 0 < lnArg RRef R25 (analogRead pin))
    (hs : quarticSum A1 B1 C1 D1 (Real.log (lnArg RRef R25 (analogRead pin))) ≠ 0) :
    ((NTC.ctor pin (Dbl.fin RRef) (Dbl.fin R25) (Dbl.fin A1) (Dbl.fin B1) (Dbl.fin C1)
        (Dbl.fin D1)).Temperature analogRead).1
      = Dbl.fin (1 / quarticSum A1 B1 C1 D1 (Real.log (lnArg RRef R25 (analogRead pin)))
          - 273.15) := by
  have hR25 : R25 ≠ 0 := by
    intro h
    simp [lnArg, h] at hx
  have hr := Resistance_fin (NTC.ctor pin (Dbl.fin RRef) (Dbl.fin R25) (Dbl.fin A1) (Dbl.fin B1)
    (Dbl.fin C1) (Dbl.fin D1)) RRef rfl (analogRead pin) h1
  have e1 : (analogRead (NTC.ctor pin (Dbl.fin RRef) (Dbl.fin R25) (Dbl.fin A1) (Dbl.fin B1)
      (Dbl.fin C1) (Dbl.fin D1))._APin) = analogRead pin := rfl
  simp only [NTC.Temperature, e1, if_neg h1.ne, if_neg h0.ne', hr]
  simp only [NTC.ctor]
  have hx' : 0 < RRef * ((analogRead pin : Int) : ℝ) / ((1023 - analogRead pin : Int) : ℝ) / R25 :=
    hx
  rw [Dbl.fin_div_fin _ _ hR25, Dbl.log_fin _ hx']
  simp only [Dbl.fin_mul_fin, Dbl.fin_add_fin, Dbl.intCast_eq]
  have hs' : A1 + B1 * Real.log (lnArg RRef R25 (analogRead pin))
      + C1 * (Real.log (lnArg RRef R25 (analogRead pin))
          * Real.log (lnArg RRef R25 (analogRead pin)))
      + D1 * (Real.log (lnArg RRef R25 (analogRead pin))
          * Real.log (lnArg RRef R25 (analogRead pin))
          * (Real.log (lnArg RRef R25 (analogRead pin))
          * Real.log (lnArg RRef R25 (analogRead pin))))
      = quarticSum A1 B1 C1 D1 (Real.log (lnArg RRef R25 (analogRead pin))) := by
    unfold quarticSum; ring
  have : (RRef * ((analogRead pin : Int) : ℝ) / ((1023 - analogRead pin : Int) : ℝ) / R25)
      = lnArg RRef R25 (analogRead pin) := rfl
  rw [this, hs', Dbl.fin_div_fin _ _ hs]
  simp

/-- The value of the documented formula for a real profile on a reading below
1023, when the argument of the logarithm is positive and the cubic sum is not zero. -/
theorem DocumentedTemperature_fin (pin : Int) (RRef R25 A1 B1 C1 D1 : ℝ) (adc : Int)
    (h1 : adc < 1023) (hx : 0 < lnArg RRef R25 adc)
    (hs : cubicSum A1 B1 C1 D1 (Real.log (lnArg RRef R25 adc)) ≠ 0) :
    (NTC.ctor pin (Dbl.fin RRef) (Dbl.fin R25) (Dbl.fin A1) (Dbl.fin B1) (Dbl.fin C1)
        (Dbl.fin D1)).DocumentedTemperature adc
      = Dbl.fin (1 / cubicSum A1 B1 C1 D1 (Real.log (lnArg RRef R25 adc)) - 273.15) := by
  have hR25 : R25 ≠ 0 := by
    intro h
    simp [lnArg, h] at hx
  have hr := Resistance_fin (NTC.ctor pin (Dbl.fin RRef) (Dbl.fin R25) (Dbl.fin A1) (Dbl.fin B1)
    (Dbl.fin C1) (Dbl.fin D1)) RRef rfl adc h1
  simp only [NTC.DocumentedTemperature, hr, DoubleArith.powN]
  simp only [NTC.ctor]
  have hx' : 0 < RRef * (adc : ℝ) / ((1023 - adc : Int) : ℝ) / R25 := hx
  rw [Dbl.fin_div_fin _ _ hR25, Dbl.log_fin _ hx']
  simp only [Dbl.fin_mul_fin, Dbl.fin_add_fin, Dbl.intCast_eq]
  have hs' : A1 + B1 * Real.log (lnArg RRef R25 adc)
      + C1 * (Real.log (lnArg RRef R25 adc) * Real.log (lnArg RRef R25 adc))
      + D1 * (Real.log (lnArg RRef R25 adc) * Real.log (lnArg RRef R25 adc)
          * Real.log (lnArg RRef R25 adc))
      = cubicSum A1 B1 C1 D1 (Real.log (lnArg RRef R25 adc)) := by
    unfold cubicSum; ring
  have : (RRef * (adc : ℝ) / ((1023 - adc : Int) : ℝ) / R25) = lnArg RRef R25 adc := rfl
  rw [this, hs', Dbl.fin_div_fin _ _ hs]
  simp

/-! ## The example object over `Dbl` -/

theorem TempToMeasure_Dbl (A0 : Int) :
    TempToMeasure (D := Dbl) A0
      = NTC.ctor A0 (Dbl.fin 4700) (Dbl.fin 4700) (Dbl.fin 3.354016e-3) (Dbl.fin 2.569355e-4)
          (Dbl.fin 2.626311e-6) (Dbl.fin 0.675278e-7) := by
  simp [TempToMeasure]

/-- With `RRef = R25 = 4700` the argument of the logarithm is `adc / (1023 - adc)`. -/
theorem lnArg_ref (adc : Int) : lnArg 4700 4700 adc = (adc : ℝ) / (1023 - (adc : ℝ)) := by
  unfold lnArg
  push_cast
  rw [div_div, mul_comm ((1023 : ℝ) - adc) 4700, mul_div_mul_left _ _ (by norm_num)]

theorem lnArg_ref_pos (adc : Int) (h0 : 0 < adc) (h1 : adc < 1023) :
    0 < lnArg 4700 4700 adc := by
  rw [lnArg_ref]
  have a0 : (0 : ℝ) < adc := by exact_mod_cast h0
  have a1 : (adc : ℝ) < 1023 := by exact_mod_cast h1
  exact div_pos a0 (by linarith)

theorem lnArg_ref_lt (a b : Int) (h0 : 0 < a) (hab : a < b) (h1 : b < 1023) :
    lnArg 4700 4700 a < lnArg 4700 4700 b := by
  rw [lnArg_ref, lnArg_ref]
  have a0 : (0 : ℝ) < a := by exact_mod_cast h0
  have ab : (a : ℝ) < b := by exact_mod_cast hab
  have b1 : (b : ℝ) < 1023 := by exact_mod_cast h1
  rw [div_lt_div_iff₀ (by linarith) (by linarith)]
  nlinarith

theorem exp_seven_gt : (1022 : ℝ) < Real.exp 7 := by
  have h := Real.exp_one_gt_d9
  have h2 : Real.exp 7 = Real.exp 1 ^ 7 := by
    rw [← Real.exp_nat_mul]; norm_num
  rw [h2]
  calc (1022 : ℝ) < 2.7 ^ 7 := by norm_num
    _ ≤ Real.exp 1 ^ 7 := by
      apply pow_le_pow_left₀ (by norm_num)
      linarith

/-- For every reading in `[1, 1022]`, `x = ln (adc / (1023 - adc))` lies in `(-7, 7)`. -/
theorem refX_bounds (adc : Int) (h0 : 0 < adc) (h1 : adc < 1023) :
    -7 < refX adc ∧ refX adc < 7 := by
  have hp := lnArg_ref_pos adc h0 h1
  have a0 : (1 : ℝ) ≤ adc := by exact_mod_cast h0
  have a1 : (adc : ℝ) ≤ 1022 := by
    have : adc ≤ 1022 := by omega
    exact_mod_cast this
  have hle : lnArg 4700 4700 adc ≤ 1022 := by
    rw [lnArg_ref, div_le_iff₀ (by linarith)]
    nlinarith
  have hge : 1 / 1022 ≤ lnArg 4700 4700 adc := by
    rw [lnArg_ref, div_le_div_iff₀ (by norm_num) (by linarith)]
    nlinarith
  constructor
  · unfold refX
    rw [Real.lt_log_iff_exp_lt hp, Real.exp_neg]
    have : (Real.exp 7)⁻¹ < 1 / 1022 := by
      rw [one_div]
      exact inv_strictAnti₀ (by norm_num) exp_seven_gt
    linarith
  · unfold refX
    rw [Real.log_lt_iff_lt_exp hp]
    linarith [exp_seven_gt]

theorem refX_lt (a b : Int) (h0 : 0 < a) (hab : a < b) (h1 : b < 1023) :
    refX a < refX b :=
  Real.log_lt_log (lnArg_ref_pos a h0 (by omega)) (lnArg_ref_lt a b h0 hab h1)

/-- The accumulated sum is positive above `-7`. -/
theorem refSum_pos (x : ℝ) (hl : -7 < x) : 0 < refSum x := by
  unfold refSum quarticSum
  have h2 : 0 ≤ x ^ 2 := by positivity
  have h4 : 0 ≤ x ^ 4 := by positivity
  norm_num
  nlinarith

/-- The accumulated sum is strictly increasing on `(-7, 7)`. -/
theorem refSum_lt (x y : ℝ) (hx : -7 < x) (hxy : x < y) (hy : y < 7) :
    refSum x < refSum y := by
  have key : refSum y - refSum x
      = (y - x) * (2.569355e-4 + 2.626311e-6 * (x + y)
          + 0.675278e-7 * ((x + y) * (x ^ 2 + y ^ 2))) := by
    unfold refSum quarticSum; ring
  have hs1 : -14 < x + y := by linarith
  have hs2 : x + y < 14 := by linarith
  have hq0 : 0 ≤ x ^ 2 + y ^ 2 := by positivity
  have hq1 : x ^ 2 + y ^ 2 ≤ 98 := by nlinarith
  have hprod : -1372 ≤ (x + y) * (x ^ 2 + y ^ 2) := by nlinarith
  have hb : 0 < 2.569355e-4 + 2.626311e-6 * (x + y)
      + 0.675278e-7 * ((x + y) * (x ^ 2 + y ^ 2)) := by
    norm_num
    nlinarith
  have : 0 < refSum y - refSum x := by
    rw [key]
    exact mul_pos (by linarith) hb
  linarith

/-- The value returned for the example object on a reading in `[1, 1022]`. -/
theorem Temperature_ref (A0 : Int) (analogRead : Int → Int)
    (h0 : 0 < analogRead A0) (h1 : analogRead A0 < 1023) :
    ((TempToMeasure (D := Dbl) A0).Temperature analogRead).1
      = Dbl.fin (1 / refSum (refX (analogRead A0)) - 273.15) := by
  rw [TempToMeasure_Dbl]
  have hb := refX_bounds (analogRead A0) h0 h1
  exact Temperature_fin A0 4700 4700 _ _ _ _ analogRead h0 h1
    (lnArg_ref_pos _ h0 h1) (refSum_pos _ hb.1).ne'

/-! ## The accumulated sum -/

/-- Away from the two boundary codes the returned value is the reciprocal of the
accumulated sum, less 273.15 (lines 111-112), for any carrier. -/
theorem Temperature_eq_reciprocal (D : Type) [DoubleArith D] (self : NTC D)
    (analogRead : Int → Int) (h0 : analogRead self._APin ≠ 0)
    (h1 : analogRead self._APin ≠ 1023) :
    (self.Temperature analogRead).1
      = ((1 : Int) : D) / self.InverseKelvinSum (analogRead self._APin) - 273.15 := by
  simp only [NTC.Temperature, NTC.InverseKelvinSum, if_neg h0, if_neg h1]

/-- The value of `x = log (Resistance / R25)` for a real profile, when the
argument of the logarithm is positive. -/
theorem LnR_R25_fin (self : NTC Dbl) (RRef R25 : ℝ) (hR : self._RRef = Dbl.fin RRef)
    (h25 : self._NTC_R25 = Dbl.fin R25) (adc : Int) (h1 : adc < 1023)
    (hx : 0 < lnArg RRef R25 adc) :
    DoubleArith.log (self.Resistance adc / self._NTC_R25)
      = Dbl.fin (Real.log (lnArg RRef R25 adc)) := by
  have hR25 : R25 ≠ 0 := by
    intro h
    simp [lnArg, h] at hx
  rw [Resistance_fin self RRef hR adc h1, h25, Dbl.fin_div_fin _ _ hR25]
  exact Dbl.log_fin _ hx

/-- The accumulated sum of a real profile, when the argument of the logarithm
is positive: the real quartic sum. -/
theorem InverseKelvinSum_fin (pin : Int) (RRef R25 A1 B1 C1 D1 : ℝ) (adc : Int)
    (h1 : adc < 1023) (hx : 0 < lnArg RRef R25 adc) :
    (NTC.ctor pin (Dbl.fin RRef) (Dbl.fin R25) (Dbl.fin A1) (Dbl.fin B1) (Dbl.fin C1)
        (Dbl.fin D1)).InverseKelvinSum adc
      = Dbl.fin (quarticSum A1 B1 C1 D1 (Real.log (lnArg RRef R25 adc))) := by
  have hl := LnR_R25_fin (NTC.ctor pin (Dbl.fin RRef) (Dbl.fin R25) (Dbl.fin A1) (Dbl.fin B1)
    (Dbl.fin C1) (Dbl.fin D1)) RRef R25 rfl rfl adc h1 hx
  simp only [NTC.InverseKelvinSum, hl]
  simp only [NTC.ctor, Dbl.fin_mul_fin, Dbl.fin_add_fin]
  congr 1
  unfold quarticSum
  ring

/-- The documented sum of a real profile, when the argument of the logarithm
is positive: the real cubic sum. -/
theorem DocumentedSum_fin (pin : Int) (RRef R25 A1 B1 C1 D1 : ℝ) (adc : Int)
    (h1 : adc < 1023) (hx : 0 < lnArg RRef R25 adc) :
    (NTC.ctor pin (Dbl.fin RRef) (Dbl.fin R25) (Dbl.fin A1) (Dbl.fin B1) (Dbl.fin C1)
        (Dbl.fin D1)).DocumentedSum adc
      = Dbl.fin (cubicSum A1 B1 C1 D1 (Real.log (lnArg RRef R25 adc))) := by
  have hl := LnR_R25_fin (NTC.ctor pin (Dbl.fin RRef) (Dbl.fin R25) (Dbl.fin A1) (Dbl.fin B1)
    (Dbl.fin C1) (Dbl.fin D1)) RRef R25 rfl rfl adc h1 hx
  simp only [NTC.DocumentedSum, hl, DoubleArith.powN]
  simp only [NTC.ctor, Dbl.fin_mul_fin, Dbl.fin_add_fin]
  congr 1
  unfold cubicSum
  ring

/-- The accumulated sum is strictly increasing on the closed interval `[-7, 7]`. -/
theorem refSum_lt_closed (x y : ℝ) (hx : -7 ≤ x) (hxy : x < y) (hy : y ≤ 7) :
    refSum x < refSum y := by
  have key : refSum y - refSum x
      = (y - x) * (2.569355e-4 + 2.626311e-6 * (x + y)
          + 0.675278e-7 * ((x + y) * (x ^ 2 + y ^ 2))) := by
    unfold refSum quarticSum; ring
  have hs1 : -14 ≤ x + y := by linarith
  have hs2 : x + y ≤ 14 := by linarith
  have hq0 : 0 ≤ x ^ 2 + y ^ 2 := by positivity
  have hq1 : x ^ 2 + y ^ 2 ≤ 98 := by nlinarith
  have hprod : -1372 ≤ (x + y) * (x ^ 2 + y ^ 2) := by nlinarith
  have hb : 0 < 2.569355e-4 + 2.626311e-6 * (x + y)
      + 0.675278e-7 * ((x + y) * (x ^ 2 + y ^ 2)) := by
    norm_num
    nlinarith
  have : 0 < refSum y - refSum x := by
    rw [key]
    exact mul_pos (by linarith) hb
  linarith

/-- On `(-7, 7)` the accumulated sum lies strictly between `1 / 573.15` and
`1 / 173.15`. -/
theorem refSum_range (x : ℝ) (hl : -7 < x) (hu : x < 7) :
    1 / 573.15 < refSum x ∧ refSum x < 1 / 173.15 := by
  have a := refSum_lt_closed (-7) x le_rfl hl hu.le
  have b := refSum_lt_closed x 7 hl.le hu le_rfl
  have ea : (1 : ℝ) / 573.15 < refSum (-7) := by
    unfold refSum quarticSum; norm_num
  have eb : refSum 7 < (1 : ℝ) / 173.15 := by
    unfold refSum quarticSum; norm_num
  exact ⟨ea.trans a, b.trans eb⟩

/-! ## Boundary codes, constructor and frame (any carrier) -/

theorem Temperature_adc_1023_aux (D : Type) [DoubleArith D] (self : NTC D)
    (analogRead : Int → Int) (h : analogRead self._APin = 1023) :
    (self.Temperature analogRead).1 = DoubleArith.INFINITY := by
  simp [NTC.Temperature, h]

theorem Temperature_adc_0_aux (D : Type) [DoubleArith D] (self : NTC D)
    (analogRead : Int → Int) (h : analogRead self._APin = 0) :
    (self.Temperature analogRead).1 = (-DoubleArith.INFINITY : D) := by
  simp [NTC.Temperature, h]


/-- C1: for every calibration profile, a raw ADC reading of 1023 makes
`NTC::Temperature` return positive infinity. -/
theorem Temperature_adc_1023 (D : Type) [DoubleArith D] (self : NTC D) (analogRead : Int → Int)
    (h : analogRead self._APin = 1023) :
    (self.Temperature analogRead).1 = DoubleArith.INFINITY := by
  simp [NTC.Temperature, h]

/-- Witness of C1: the example object over `Dbl`, on pin 14, reading 1023. -/
theorem Temperature_adc_1023_witness :
    (fun _ : Int => (1023 : Int)) (TempToMeasure (D := Dbl) 14)._APin = 1023 ∧
      ((TempToMeasure (D := Dbl) 14).Temperature (fun _ => 1023)).1 = Dbl.pinf :=
  ⟨rfl, Temperature_adc_1023 Dbl (TempToMeasure 14) (fun _ => 1023) rfl⟩

/-- C2: for every calibration profile, a raw ADC reading of 0 makes
`NTC::Temperature` return negative infinity. -/
theorem Temperature_adc_0 (D : Type) [DoubleArith D] (self : NTC D) (analogRead : Int → Int)
    (h : analogRead self._APin = 0) :
    (self.Temperature analogRead).1 = (-DoubleArith.INFINITY : D) := by
  simp [NTC.Temperature, h]

/-- Witness of C2: the example object over `Dbl`, on pin 14, reading 0. -/
theorem Temperature_adc_0_witness :
    (fun _ : Int => (0 : Int)) (TempToMeasure (D := Dbl) 14)._APin = 0 ∧
      ((TempToMeasure (D := Dbl) 14).Temperature (fun _ => 0)).1 = Dbl.ninf :=
  ⟨rfl, Temperature_adc_0 Dbl (TempToMeasure 14) (fun _ => 0) rfl⟩

/-- C3 (the code departs from its documented formula): for the example object
and the reading 1, `NTC::Temperature` does not return the value of the cubic
expression of the class comment, `1 / (A1 + B1*x + C1*x^2 + D1*x^3) - 273.15`. -/
theorem Temperature_ne_Documented :
    ((TempToMeasure (D := Dbl) 14).Temperature (fun _ => 1)).1
      ≠ (TempToMeasure (D := Dbl) 14).DocumentedTemperature 1 := by
  have hb := refX_bounds 1 (by norm_num) (by norm_num)
  have hneg : refX 1 < 0 := by
    unfold refX
    apply Real.log_neg (lnArg_ref_pos 1 (by norm_num) (by norm_num))
    rw [lnArg_ref]; norm_num
  have h3 : (refX 1) ^ 3 < 0 := by
    have : (refX 1) ^ 3 = refX 1 * (refX 1) ^ 2 := by ring
    rw [this]
    have hne : refX 1 ≠ 0 := hneg.ne
    exact mul_neg_of_neg_of_pos hneg (by positivity)
  have h3l : -343 < (refX 1) ^ 3 := by nlinarith [hb.1, sq_nonneg (refX 1), sq_nonneg (refX 1 + 7)]
  have h4 : 0 < (refX 1) ^ 4 := by
    have : refX 1 ≠ 0 := hneg.ne
    positivity
  have hc : 0 < cubicSum 3.354016e-3 2.569355e-4 2.626311e-6 0.675278e-7 (refX 1) := by
    unfold cubicSum
    have h2 : 0 ≤ (refX 1) ^ 2 := by positivity
    norm_num
    nlinarith [hb.1]
  have hlt : cubicSum 3.354016e-3 2.569355e-4 2.626311e-6 0.675278e-7 (refX 1)
      < refSum (refX 1) := by
    unfold refSum quarticSum cubicSum
    norm_num
    nlinarith
  have e1 := Temperature_ref 14 (fun _ => 1) (by norm_num) (by norm_num)
  have e2 := DocumentedTemperature_fin 14 4700 4700 3.354016e-3 2.569355e-4 2.626311e-6
    0.675278e-7 1 (by norm_num) (lnArg_ref_pos 1 (by norm_num) (by norm_num)) hc.ne'
  rw [← TempToMeasure_Dbl] at e2
  rw [e1, e2]
  intro h
  have h' : 1 / refSum (refX 1) - 273.15
      = 1 / cubicSum 3.354016e-3 2.569355e-4 2.626311e-6 0.675278e-7 (refX 1) - 273.15 :=
    Dbl.fin.inj h
  have h'' : 1 / refSum (refX 1)
      = 1 / cubicSum 3.354016e-3 2.569355e-4 2.626311e-6 0.675278e-7 (refX 1) := by linarith
  have := one_div_lt_one_div_of_lt hc hlt
  linarith

/-- C4: for the example object and the reading 512 the returned value `T` is
finite and satisfies `|T - 25.0| <= 0.05`. -/
theorem Temperature_adc_512 (A0 : Int) (analogRead : Int → Int) (h : analogRead A0 = 512) :
    ∃ T : ℝ, ((TempToMeasure (D := Dbl) A0).Temperature analogRead).1 = Dbl.fin T
      ∧ |T - 25.0| ≤ 0.05 := by
  refine ⟨_, Temperature_ref A0 analogRead (by omega) (by omega), ?_⟩
  rw [h]
  have harg : lnArg 4700 4700 512 = 512 / 511 := by
    rw [lnArg_ref]; norm_num
  have hx0 : 0 < refX 512 := by
    unfold refX
    rw [harg]
    exact Real.log_pos (by norm_num)
  have hx1 : refX 512 ≤ 1 / 511 := by
    unfold refX
    rw [harg]
    have := Real.log_le_sub_one_of_pos (show (0 : ℝ) < 512 / 511 by norm_num)
    linarith
  have h2 : (refX 512) ^ 2 ≤ 1 / 511 := by nlinarith
  have h4 : (refX 512) ^ 4 ≤ 1 / 511 := by
    have : (refX 512) ^ 4 = (refX 512) ^ 2 * (refX 512) ^ 2 := by ring
    rw [this]
    nlinarith [sq_nonneg (refX 512)]
  have h2' : 0 ≤ (refX 512) ^ 2 := by positivity
  have h4' : 0 ≤ (refX 512) ^ 4 := by positivity
  have hlo : 1 / 298.2 ≤ refSum (refX 512) := by
    unfold refSum quarticSum
    norm_num
    nlinarith
  have hhi : refSum (refX 512) ≤ 1 / 298.1 := by
    unfold refSum quarticSum
    norm_num
    nlinarith
  have hpos : 0 < refSum (refX 512) := lt_of_lt_of_le (by norm_num) hlo
  have b1 : 1 / refSum (refX 512) ≤ 298.2 := by
    rw [div_le_iff₀ hpos]
    have := mul_le_mul_of_nonneg_left hlo (show (0 : ℝ) ≤ 298.2 by norm_num)
    norm_num at this ⊢
    linarith
  have b2 : 298.1 ≤ 1 / refSum (refX 512) := by
    rw [le_div_iff₀ hpos]
    have := mul_le_mul_of_nonneg_left hhi (show (0 : ℝ) ≤ 298.1 by norm_num)
    norm_num at this ⊢
    linarith
  rw [abs_le]
  rw [one_div] at b1 b2
  norm_num at b1 b2 ⊢
  constructor <;> linarith

/-- Witness of C4: pin 14 always reading 512. -/
theorem Temperature_adc_512_witness :
    (fun _ : Int => (512 : Int)) 14 = 512 ∧
      ∃ T : ℝ, ((TempToMeasure (D := Dbl) 14).Temperature (fun _ => 512)).1 = Dbl.fin T
        ∧ |T - 25.0| ≤ 0.05 :=
  ⟨rfl, Temperature_adc_512 14 (fun _ => 512) rfl⟩

/-- C5: for the example object, `NTC::Temperature` is non-increasing in the
reading over `[1, 1022]`: if `1 <= adc1 < adc2 <= 1022` then the result for
`adc2` is `<=` the result for `adc1`. -/
theorem Temperature_antitone (A0 : Int) (read1 read2 : Int → Int)
    (h1 : 1 ≤ read1 A0) (h12 : read1 A0 < read2 A0) (h2 : read2 A0 ≤ 1022) :
    ((TempToMeasure (D := Dbl) A0).Temperature read2).1
      ≤ ((TempToMeasure (D := Dbl) A0).Temperature read1).1 := by
  rw [Temperature_ref A0 read1 (by omega) (by omega),
    Temperature_ref A0 read2 (by omega) (by omega)]
  show 1 / refSum (refX (read2 A0)) - 273.15 ≤ 1 / refSum (refX (read1 A0)) - 273.15
  have ba := refX_bounds (read1 A0) (by omega) (by omega)
  have bb := refX_bounds (read2 A0) (by omega) (by omega)
  have hx := refX_lt (read1 A0) (read2 A0) (by omega) h12 (by omega)
  have hs := refSum_lt _ _ ba.1 hx bb.2
  have hp := refSum_pos _ ba.1
  have := one_div_lt_one_div_of_lt hp hs
  linarith

/-- Witness of C5: the readings 1 and 1022 on pin 14. -/
theorem Temperature_antitone_witness :
    ((1 : Int) ≤ (fun _ : Int => (1 : Int)) 14 ∧
        (fun _ : Int => (1 : Int)) 14 < (fun _ : Int => (1022 : Int)) 14 ∧
        (fun _ : Int => (1022 : Int)) 14 ≤ 1022) ∧
      ((TempToMeasure (D := Dbl) 14).Temperature (fun _ => 1022)).1
        ≤ ((TempToMeasure (D := Dbl) 14).Temperature (fun _ => 1)).1 :=
  ⟨⟨by decide, by decide, by decide⟩,
    Temperature_antitone 14 (fun _ => 1) (fun _ => 1022) (by decide) (by decide) (by decide)⟩

/-- Exact arithmetic (carrier `Dbl`, no rounding): for a profile with real
`RRef > 0` and a reading `0 < adc < 1023`, the divisor `1023 - adc` is not zero and
the resistance `RRef * adc / (1023 - adc)` is a strictly positive real; with a
real `R25 > 0` the argument `Resistance / R25` of the logarithm is strictly
positive too.  Under rounding this needs a bound on `RRef`, see
`Resistance_pos_in_range`. -/
theorem Resistance_pos (self : NTC Dbl) (RRef : ℝ) (hR : self._RRef = Dbl.fin RRef)
    (hpos : 0 < RRef) (adc : Int) (h0 : 0 < adc) (h1 : adc < 1023) :
    1023 - adc ≠ 0 ∧
      ∃ v : ℝ, self.Resistance adc = Dbl.fin v ∧ 0 < v ∧
        ∀ R25 : ℝ, self._NTC_R25 = Dbl.fin R25 → 0 < R25 →
          ∃ w : ℝ, self.Resistance adc / self._NTC_R25 = Dbl.fin w ∧ 0 < w := by
  have hd : (0 : ℝ) < ((1023 - adc : Int) : ℝ) := by
    have : (0 : Int) < 1023 - adc := by omega
    exact_mod_cast this
  have ha : (0 : ℝ) < (adc : ℝ) := by exact_mod_cast h0
  have hv : 0 < RRef * (adc : ℝ) / ((1023 - adc : Int) : ℝ) := div_pos (mul_pos hpos ha) hd
  refine ⟨by omega, _, Resistance_fin self RRef hR adc h1, hv, ?_⟩
  intro R25 h25 hq
  refine ⟨_, ?_, div_pos hv hq⟩
  rw [Resistance_fin self RRef hR adc h1, h25]
  exact Dbl.fin_div_fin _ _ hq.ne'

/-- An instance of `Resistance_pos`: the example object on pin 14 and the reading 1. -/
theorem Resistance_pos_witness :
    ((TempToMeasure (D := Dbl) 14)._RRef = Dbl.fin ((4700 : Int) : ℝ)
        ∧ (0 : ℝ) < ((4700 : Int) : ℝ) ∧ (0 : Int) < 1 ∧ (1 : Int) < 1023) ∧
      ((1023 : Int) - 1 ≠ 0 ∧
        ∃ v : ℝ, (TempToMeasure (D := Dbl) 14).Resistance 1 = Dbl.fin v ∧ 0 < v ∧
          ∀ R25 : ℝ, (TempToMeasure (D := Dbl) 14)._NTC_R25 = Dbl.fin R25 → 0 < R25 →
            ∃ w : ℝ, (TempToMeasure (D := Dbl) 14).Resistance 1
                / (TempToMeasure (D := Dbl) 14)._NTC_R25 = Dbl.fin w ∧ 0 < w) :=
  ⟨⟨rfl, by norm_num, by decide, by decide⟩,
    Resistance_pos (TempToMeasure 14) ((4700 : Int) : ℝ) rfl (by norm_num) 1 (by decide)
      (by decide)⟩

/-- C7: for the example object and a reading in `[0, 1023]`, the result is
infinite exactly when the reading is 0 or 1023: it is `-∞` at 0, `+∞` at 1023,
and a finite real at every reading in `[1, 1022]`. -/
theorem Temperature_infinite_iff (A0 : Int) (analogRead : Int → Int)
    (h0 : 0 ≤ analogRead A0) (h1 : analogRead A0 ≤ 1023) :
    (Dbl.isInfinite ((TempToMeasure (D := Dbl) A0).Temperature analogRead).1
        ↔ analogRead A0 = 0 ∨ analogRead A0 = 1023)
      ∧ (analogRead A0 = 0 →
          ((TempToMeasure (D := Dbl) A0).Temperature analogRead).1 = Dbl.ninf)
      ∧ (analogRead A0 = 1023 →
          ((TempToMeasure (D := Dbl) A0).Temperature analogRead).1 = Dbl.pinf)
      ∧ (1 ≤ analogRead A0 → analogRead A0 ≤ 1022 →
          ∃ T : ℝ, ((TempToMeasure (D := Dbl) A0).Temperature analogRead).1 = Dbl.fin T) := by
  have hz : analogRead A0 = 0 →
      ((TempToMeasure (D := Dbl) A0).Temperature analogRead).1 = Dbl.ninf := fun h =>
    Temperature_adc_0_aux Dbl (TempToMeasure A0) analogRead h
  have hm : analogRead A0 = 1023 →
      ((TempToMeasure (D := Dbl) A0).Temperature analogRead).1 = Dbl.pinf := fun h =>
    Temperature_adc_1023_aux Dbl (TempToMeasure A0) analogRead h
  have hf : 1 ≤ analogRead A0 → analogRead A0 ≤ 1022 →
      ∃ T : ℝ, ((TempToMeasure (D := Dbl) A0).Temperature analogRead).1 = Dbl.fin T :=
    fun a b => ⟨_, Temperature_ref A0 analogRead (by omega) (by omega)⟩
  refine ⟨⟨fun hinf => ?_, fun h => ?_⟩, hz, hm, hf⟩
  · by_contra hne
    obtain ⟨T, hT⟩ := hf (by omega) (by omega)
    rw [hT] at hinf
    rcases hinf with h | h <;> exact Dbl.noConfusion h
  · rcases h with h | h
    · exact Or.inr (hz h)
    · exact Or.inl (hm h)

/-- Witness of C7: pin 14 always reading 1. -/
theorem Temperature_infinite_iff_witness :
    ((0 : Int) ≤ (fun _ : Int => (1 : Int)) 14 ∧ (fun _ : Int => (1 : Int)) 14 ≤ 1023) ∧
      ((Dbl.isInfinite ((TempToMeasure (D := Dbl) 14).Temperature (fun _ => 1)).1
          ↔ (fun _ : Int => (1 : Int)) 14 = 0 ∨ (fun _ : Int => (1 : Int)) 14 = 1023)
        ∧ ((fun _ : Int => (1 : Int)) 14 = 0 →
            ((TempToMeasure (D := Dbl) 14).Temperature (fun _ => 1)).1 = Dbl.ninf)
        ∧ ((fun _ : Int => (1 : Int)) 14 = 1023 →
            ((TempToMeasure (D := Dbl) 14).Temperature (fun _ => 1)).1 = Dbl.pinf)
        ∧ (1 ≤ (fun _ : Int => (1 : Int)) 14 → (fun _ : Int => (1 : Int)) 14 ≤ 1022 →
            ∃ T : ℝ, ((TempToMeasure (D := Dbl) 14).Temperature (fun _ => 1)).1 = Dbl.fin T)) :=
  ⟨⟨by decide, by decide⟩,
    Temperature_infinite_iff 14 (fun _ => 1) (by decide) (by decide)⟩

/-- C8: `NTC::Temperature` leaves the object unchanged (all seven fields), and
with the ADC modelled as a function from pin to reading, two ADC states that
agree on the reading of `_APin` give equal results. -/
theorem Temperature_frame (D : Type) [DoubleArith D] (self : NTC D) (read1 read2 : Int → Int)
    (h : read1 self._APin = read2 self._APin) :
    (self.Temperature read1).2 = self ∧ (self.Temperature read2).2 = self
      ∧ (self.Temperature read1).1 = (self.Temperature read2).1 := by
  refine ⟨rfl, rfl, ?_⟩
  simp only [NTC.Temperature, h]

/-- Witness of C8: two ADC states that differ away from pin 14 and agree on it. -/
theorem Temperature_frame_witness :
    (fun p : Int => if p = 14 then (300 : Int) else 0) (TempToMeasure (D := Dbl) 14)._APin
        = (fun _ : Int => (300 : Int)) (TempToMeasure (D := Dbl) 14)._APin ∧
      (((TempToMeasure (D := Dbl) 14).Temperature
            (fun p : Int => if p = 14 then (300 : Int) else 0)).2 = TempToMeasure 14
        ∧ ((TempToMeasure (D := Dbl) 14).Temperature (fun _ => 300)).2 = TempToMeasure 14
        ∧ ((TempToMeasure (D := Dbl) 14).Temperature
            (fun p : Int => if p = 14 then (300 : Int) else 0)).1
          = ((TempToMeasure (D := Dbl) 14).Temperature (fun _ => 300)).1) :=
  ⟨rfl, Temperature_frame Dbl (TempToMeasure 14)
    (fun p : Int => if p = 14 then (300 : Int) else 0) (fun _ => 300) rfl⟩

/-- C9: for every profile and every reading `0 < adc < 1023`, the value that
`NTC::Temperature` computes is `1 / (A1 + B1*x + C1*x^2 + D1*x^4) - 273.15`
with `x = log (RRef * adc / (1023 - adc) / R25)`: the last term carries the
fourth power of `x`. -/
theorem Temperature_quartic (self : NTC Dbl) (analogRead : Int → Int)
    (h0 : 0 < analogRead self._APin) (h1 : analogRead self._APin < 1023) :
    (self.Temperature analogRead).1
      = ((1 : Int) : Dbl) /
          (self._NTC_A1
            + self._NTC_B1 * DoubleArith.log
                (self._RRef * ((analogRead self._APin : Int) : Dbl)
                  / ((1023 - analogRead self._APin : Int) : Dbl) / self._NTC_R25)
            + self._NTC_C1 * DoubleArith.powN (DoubleArith.log
                (self._RRef * ((analogRead self._APin : Int) : Dbl)
                  / ((1023 - analogRead self._APin : Int) : Dbl) / self._NTC_R25)) 2
            + self._NTC_D1 * DoubleArith.powN (DoubleArith.log
                (self._RRef * ((analogRead self._APin : Int) : Dbl)
                  / ((1023 - analogRead self._APin : Int) : Dbl) / self._NTC_R25)) 4)
        - 273.15 := by
  simp only [NTC.Temperature, NTC.Resistance, if_neg h1.ne, if_neg h0.ne']
  rw [Dbl.sq_sq_eq_powN]
  rfl

/-- Witness of C9: the example object on pin 14 and the reading 100. -/
theorem Temperature_quartic_witness :
    ((0 : Int) < (fun _ : Int => (100 : Int)) (TempToMeasure (D := Dbl) 14)._APin
        ∧ (fun _ : Int => (100 : Int)) (TempToMeasure (D := Dbl) 14)._APin < 1023) ∧
      ((TempToMeasure (D := Dbl) 14).Temperature (fun _ => 100)).1
        = ((1 : Int) : Dbl) /
            ((TempToMeasure (D := Dbl) 14)._NTC_A1
              + (TempToMeasure (D := Dbl) 14)._NTC_B1 * DoubleArith.log
                  ((TempToMeasure (D := Dbl) 14)._RRef * ((100 : Int) : Dbl)
                    / ((1023 - 100 : Int) : Dbl) / (TempToMeasure (D := Dbl) 14)._NTC_R25)
              + (TempToMeasure (D := Dbl) 14)._NTC_C1 * DoubleArith.powN (DoubleArith.log
                  ((TempToMeasure (D := Dbl) 14)._RRef * ((100 : Int) : Dbl)
                    / ((1023 - 100 : Int) : Dbl) / (TempToMeasure (D := Dbl) 14)._NTC_R25)) 2
              + (TempToMeasure (D := Dbl) 14)._NTC_D1 * DoubleArith.powN (DoubleArith.log
                  ((TempToMeasure (D := Dbl) 14)._RRef * ((100 : Int) : Dbl)
                    / ((1023 - 100 : Int) : Dbl) / (TempToMeasure (D := Dbl) 14)._NTC_R25)) 4)
          - 273.15 :=
  ⟨⟨by decide, by decide⟩,
    Temperature_quartic (TempToMeasure 14) (fun _ => 100) (by decide) (by decide)⟩

/-- C10: the constructor performs no validation and always yields an object:
for every argument tuple, whatever the values, the seven fields of the result
are the seven arguments, in order. -/
theorem ctor_fields (D : Type) (APin : Int) (RRef NTC_R25 NTC_A1 NTC_B1 NTC_C1 NTC_D1 : D) :
    (NTC.ctor APin RRef NTC_R25 NTC_A1 NTC_B1 NTC_C1 NTC_D1)._APin = APin
      ∧ (NTC.ctor APin RRef NTC_R25 NTC_A1 NTC_B1 NTC_C1 NTC_D1)._RRef = RRef
      ∧ (NTC.ctor APin RRef NTC_R25 NTC_A1 NTC_B1 NTC_C1 NTC_D1)._NTC_R25 = NTC_R25
      ∧ (NTC.ctor APin RRef NTC_R25 NTC_A1 NTC_B1 NTC_C1 NTC_D1)._NTC_A1 = NTC_A1
      ∧ (NTC.ctor APin RRef NTC_R25 NTC_A1 NTC_B1 NTC_C1 NTC_D1)._NTC_B1 = NTC_B1
      ∧ (NTC.ctor APin RRef NTC_R25 NTC_A1 NTC_B1 NTC_C1 NTC_D1)._NTC_C1 = NTC_C1
      ∧ (NTC.ctor APin RRef NTC_R25 NTC_A1 NTC_B1 NTC_C1 NTC_D1)._NTC_D1 = NTC_D1 :=
  ⟨rfl, rfl, rfl, rfl, rfl, rfl, rfl⟩

/-- C11: for the example object and every reading in `[1, 1022]`, the sum that
`NTC::Temperature` accumulates before taking the reciprocal is a strictly
positive real `s`, so `1 / Result` divides by a non-zero number; the returned
value is the real `T = 1 / s - 273.15`, which is above `-273.15` and lies
strictly between `-100` and `300`. -/
theorem InverseKelvinSum_ref_pos (A0 : Int) (analogRead : Int → Int)
    (h0 : 1 ≤ analogRead A0) (h1 : analogRead A0 ≤ 1022) :
    ∃ s T : ℝ,
      (TempToMeasure (D := Dbl) A0).InverseKelvinSum (analogRead A0) = Dbl.fin s
        ∧ 0 < s
        ∧ ((TempToMeasure (D := Dbl) A0).Temperature analogRead).1 = Dbl.fin T
        ∧ T = 1 / s - 273.15
        ∧ -273.15 < T ∧ -100 < T ∧ T < 300 := by
  have hb := refX_bounds (analogRead A0) (by omega) (by omega)
  have hr := refSum_range (refX (analogRead A0)) hb.1 hb.2
  have hp : 0 < refSum (refX (analogRead A0)) := lt_trans (by norm_num) hr.1
  have hsum : (TempToMeasure (D := Dbl) A0).InverseKelvinSum (analogRead A0)
      = Dbl.fin (refSum (refX (analogRead A0))) := by
    rw [TempToMeasure_Dbl]
    exact InverseKelvinSum_fin A0 4700 4700 _ _ _ _ (analogRead A0) (by omega)
      (lnArg_ref_pos _ (by omega) (by omega))
  have hinv : 0 < 1 / refSum (refX (analogRead A0)) := one_div_pos.mpr hp
  have hup : 1 / refSum (refX (analogRead A0)) < 573.15 := by
    rw [div_lt_iff₀ hp]
    have := mul_lt_mul_of_pos_left hr.1 (show (0 : ℝ) < 573.15 by norm_num)
    norm_num at this ⊢
    linarith
  have hlo : 173.15 < 1 / refSum (refX (analogRead A0)) := by
    rw [lt_div_iff₀ hp]
    have := mul_lt_mul_of_pos_left hr.2 (show (0 : ℝ) < 173.15 by norm_num)
    norm_num at this ⊢
    linarith
  refine ⟨refSum (refX (analogRead A0)), 1 / refSum (refX (analogRead A0)) - 273.15, hsum, hp,
    Temperature_ref A0 analogRead (by omega) (by omega), rfl, ?_, ?_, ?_⟩
  · linarith
  · norm_num at hlo ⊢
    linarith
  · norm_num at hup ⊢
    linarith

/-- Witness of C11: pin 14 always reading 1022. -/
theorem InverseKelvinSum_ref_pos_witness :
    ((1 : Int) ≤ (fun _ : Int => (1022 : Int)) 14 ∧ (fun _ : Int => (1022 : Int)) 14 ≤ 1022) ∧
      ∃ s T : ℝ,
        (TempToMeasure (D := Dbl) 14).InverseKelvinSum 1022 = Dbl.fin s
          ∧ 0 < s
          ∧ ((TempToMeasure (D := Dbl) 14).Temperature (fun _ => 1022)).1 = Dbl.fin T
          ∧ T = 1 / s - 273.15
          ∧ -273.15 < T ∧ -100 < T ∧ T < 300 :=
  ⟨⟨by decide, by decide⟩,
    InverseKelvinSum_ref_pos 14 (fun _ => 1022) (by decide) (by decide)⟩

/-- Exact arithmetic (carrier `Dbl`, no rounding): for a profile with real
coefficients, `A1` not zero and a real `R25 > 0`, and a reading `0 < adc < 1023`
whose divider resistance `RRef * adc / (1023 - adc)` equals `R25` (so
`x = log 1 = 0`), the returned value is `1 / A1 - 273.15`, whatever `B1`, `C1` and
`D1` are.  Under rounding the resistance has to equal `R25` as computed, see
`Temperature_at_computed_R25`. -/
theorem Temperature_at_R25 (pin : Int) (RRef R25 A1 B1 C1 D1 : ℝ) (analogRead : Int → Int)
    (hA : A1 ≠ 0) (h25 : 0 < R25)
    (h0 : 0 < analogRead pin) (h1 : analogRead pin < 1023)
    (heq : (NTC.ctor pin (Dbl.fin RRef) (Dbl.fin R25) (Dbl.fin A1) (Dbl.fin B1) (Dbl.fin C1)
        (Dbl.fin D1)).Resistance (analogRead pin) = Dbl.fin R25) :
    ((NTC.ctor pin (Dbl.fin RRef) (Dbl.fin R25) (Dbl.fin A1) (Dbl.fin B1) (Dbl.fin C1)
        (Dbl.fin D1)).Temperature analogRead).1
      = Dbl.fin (1 / A1 - 273.15) := by
  have hr := Resistance_fin (NTC.ctor pin (Dbl.fin RRef) (Dbl.fin R25) (Dbl.fin A1) (Dbl.fin B1)
    (Dbl.fin C1) (Dbl.fin D1)) RRef rfl (analogRead pin) h1
  rw [hr] at heq
  have hres : RRef * ((analogRead pin : Int) : ℝ) / ((1023 - analogRead pin : Int) : ℝ) = R25 :=
    Dbl.fin.inj heq
  have harg : lnArg RRef R25 (analogRead pin) = 1 := by
    unfold lnArg
    rw [hres]
    exact div_self h25.ne'
  have hq : quarticSum A1 B1 C1 D1 (Real.log (lnArg RRef R25 (analogRead pin))) = A1 := by
    rw [harg, Real.log_one]
    unfold quarticSum
    ring
  have ht := Temperature_fin pin RRef R25 A1 B1 C1 D1 analogRead h0 h1
    (by rw [harg]; exact one_pos) (by rw [hq]; exact hA)
  rw [ht, hq]

/-- An instance of `Temperature_at_R25`: `RRef = 2`, `R25 = 1` and the reading
341, for which `2 * 341 / (1023 - 341) = 1`, with the coefficients of the example
object. -/
theorem Temperature_at_R25_witness :
    ((3.354016e-3 : ℝ) ≠ 0 ∧ (0 : ℝ) < 1
        ∧ (0 : Int) < (fun _ : Int => (341 : Int)) 14
        ∧ (fun _ : Int => (341 : Int)) 14 < 1023
        ∧ (NTC.ctor 14 (Dbl.fin 2) (Dbl.fin 1) (Dbl.fin 3.354016e-3) (Dbl.fin 2.569355e-4)
            (Dbl.fin 2.626311e-6) (Dbl.fin 0.675278e-7)).Resistance 341 = Dbl.fin 1) ∧
      ((NTC.ctor 14 (Dbl.fin 2) (Dbl.fin 1) (Dbl.fin 3.354016e-3) (Dbl.fin 2.569355e-4)
          (Dbl.fin 2.626311e-6) (Dbl.fin 0.675278e-7)).Temperature (fun _ => 341)).1
        = Dbl.fin (1 / 3.354016e-3 - 273.15) :=
  have hres : (NTC.ctor 14 (Dbl.fin 2) (Dbl.fin 1) (Dbl.fin 3.354016e-3) (Dbl.fin 2.569355e-4)
      (Dbl.fin 2.626311e-6) (Dbl.fin 0.675278e-7)).Resistance 341 = Dbl.fin 1 := by
    rw [Resistance_fin _ 2 rfl 341 (by decide)]
    norm_num
  ⟨⟨by norm_num, by norm_num, by decide, by decide, hres⟩,
    Temperature_at_R25 14 2 1 3.354016e-3 2.569355e-4 2.626311e-6 0.675278e-7 (fun _ => 341)
      (by norm_num) (by norm_num) (by decide) (by decide) hres⟩

/-- Exact arithmetic (carrier `Dbl`, no rounding): for a real profile and a
reading `0 < adc < 1023` for which `x = log (RRef * adc / (1023 - adc) / R25)` is a
real number (the argument of the logarithm is positive), the returned value is
`1 / sum - 273.15` for the accumulated sum, the accumulated sum equals the
documented cubic sum plus `D1 * (x^4 - x^3)`, and the two sums coincide exactly
when `D1 = 0` or `x = 0` or `x = 1`.  Under rounding only one direction remains,
see `Sums_coincide`. -/
theorem InverseKelvinSum_eq_Documented_add (pin : Int) (RRef R25 A1 B1 C1 D1 : ℝ)
    (analogRead : Int → Int) (h0 : 0 < analogRead pin) (h1 : analogRead pin < 1023)
    (hx : 0 < lnArg RRef R25 (analogRead pin)) :
    ((NTC.ctor pin (Dbl.fin RRef) (Dbl.fin R25) (Dbl.fin A1) (Dbl.fin B1) (Dbl.fin C1)
        (Dbl.fin D1)).Temperature analogRead).1
        = ((1 : Int) : Dbl) / (NTC.ctor pin (Dbl.fin RRef) (Dbl.fin R25) (Dbl.fin A1)
            (Dbl.fin B1) (Dbl.fin C1) (Dbl.fin D1)).InverseKelvinSum (analogRead pin) - 273.15
      ∧ DoubleArith.log ((NTC.ctor pin (Dbl.fin RRef) (Dbl.fin R25) (Dbl.fin A1) (Dbl.fin B1)
            (Dbl.fin C1) (Dbl.fin D1)).Resistance (analogRead pin) / Dbl.fin R25)
          = Dbl.fin (Real.log (lnArg RRef R25 (analogRead pin)))
      ∧ (NTC.ctor pin (Dbl.fin RRef) (Dbl.fin R25) (Dbl.fin A1) (Dbl.fin B1) (Dbl.fin C1)
            (Dbl.fin D1)).InverseKelvinSum (analogRead pin)
          = (NTC.ctor pin (Dbl.fin RRef) (Dbl.fin R25) (Dbl.fin A1) (Dbl.fin B1) (Dbl.fin C1)
              (Dbl.fin D1)).DocumentedSum (analogRead pin)
            + Dbl.fin D1
              * (DoubleArith.powN (Dbl.fin (Real.log (lnArg RRef R25 (analogRead pin)))) 4
                - DoubleArith.powN (Dbl.fin (Real.log (lnArg RRef R25 (analogRead pin)))) 3)
      ∧ ((NTC.ctor pin (Dbl.fin RRef) (Dbl.fin R25) (Dbl.fin A1) (Dbl.fin B1) (Dbl.fin C1)
            (Dbl.fin D1)).InverseKelvinSum (analogRead pin)
          = (NTC.ctor pin (Dbl.fin RRef) (Dbl.fin R25) (Dbl.fin A1) (Dbl.fin B1) (Dbl.fin C1)
              (Dbl.fin D1)).DocumentedSum (analogRead pin)
          ↔ D1 = 0 ∨ Real.log (lnArg RRef R25 (analogRead pin)) = 0
            ∨ Real.log (lnArg RRef R25 (analogRead pin)) = 1) := by
  have hq := InverseKelvinSum_fin pin RRef R25 A1 B1 C1 D1 (analogRead pin) h1 hx
  have hc := DocumentedSum_fin pin RRef R25 A1 B1 C1 D1 (analogRead pin) h1 hx
  have hl := LnR_R25_fin (NTC.ctor pin (Dbl.fin RRef) (Dbl.fin R25) (Dbl.fin A1) (Dbl.fin B1)
    (Dbl.fin C1) (Dbl.fin D1)) RRef R25 rfl rfl (analogRead pin) h1 hx
  have hd : quarticSum A1 B1 C1 D1 (Real.log (lnArg RRef R25 (analogRead pin)))
      = cubicSum A1 B1 C1 D1 (Real.log (lnArg RRef R25 (analogRead pin)))
        + D1 * (Real.log (lnArg RRef R25 (analogRead pin)) ^ 4
          - Real.log (lnArg RRef R25 (analogRead pin)) ^ 3) := by
    unfold quarticSum cubicSum
    ring
  refine ⟨Temperature_eq_reciprocal Dbl _ analogRead h0.ne' h1.ne, hl, ?_, ?_⟩
  · rw [hq, hc, hd]
    simp only [DoubleArith.powN, Dbl.fin_mul_fin, Dbl.fin_sub_fin, Dbl.fin_add_fin]
    congr 1
    ring
  · rw [hq, hc, hd]
    constructor
    · intro h
      have h' := Dbl.fin.inj h
      have hz : D1 * (Real.log (lnArg RRef R25 (analogRead pin)) ^ 3
          * (Real.log (lnArg RRef R25 (analogRead pin)) - 1)) = 0 := by
        linear_combination h'
      rcases mul_eq_zero.mp hz with hD | hprod
      · exact Or.inl hD
      · rcases mul_eq_zero.mp hprod with h3 | h1'
        · exact Or.inr (Or.inl (pow_eq_zero_iff (by norm_num) |>.mp h3))
        · exact Or.inr (Or.inr (by linarith))
    · intro h
      congr 1
      rcases h with hD | hx0 | hx1
      · rw [hD]; ring
      · rw [hx0]; ring
      · rw [hx1]; ring

/-- An instance of `InverseKelvinSum_eq_Documented_add`: the values of the example
object on pin 14 and the reading 100. -/
theorem InverseKelvinSum_eq_Documented_add_witness :
    ((0 : Int) < (fun _ : Int => (100 : Int)) 14 ∧ (fun _ : Int => (100 : Int)) 14 < 1023
        ∧ 0 < lnArg 4700 4700 ((fun _ : Int => (100 : Int)) 14)) ∧
      (((NTC.ctor 14 (Dbl.fin 4700) (Dbl.fin 4700) (Dbl.fin 3.354016e-3) (Dbl.fin 2.569355e-4)
          (Dbl.fin 2.626311e-6) (Dbl.fin 0.675278e-7)).Temperature (fun _ => 100)).1
          = ((1 : Int) : Dbl) / (NTC.ctor 14 (Dbl.fin 4700) (Dbl.fin 4700) (Dbl.fin 3.354016e-3)
              (Dbl.fin 2.569355e-4) (Dbl.fin 2.626311e-6)
              (Dbl.fin 0.675278e-7)).InverseKelvinSum 100 - 273.15
        ∧ DoubleArith.log ((NTC.ctor 14 (Dbl.fin 4700) (Dbl.fin 4700) (Dbl.fin 3.354016e-3)
              (Dbl.fin 2.569355e-4) (Dbl.fin 2.626311e-6)
              (Dbl.fin 0.675278e-7)).Resistance 100 / Dbl.fin 4700)
            = Dbl.fin (Real.log (lnArg 4700 4700 100))
        ∧ (NTC.ctor 14 (Dbl.fin 4700) (Dbl.fin 4700) (Dbl.fin 3.354016e-3)
              (Dbl.fin 2.569355e-4) (Dbl.fin 2.626311e-6)
              (Dbl.fin 0.675278e-7)).InverseKelvinSum 100
            = (NTC.ctor 14 (Dbl.fin 4700) (Dbl.fin 4700) (Dbl.fin 3.354016e-3)
                (Dbl.fin 2.569355e-4) (Dbl.fin 2.626311e-6)
                (Dbl.fin 0.675278e-7)).DocumentedSum 100
              + Dbl.fin 0.675278e-7
                * (DoubleArith.powN (Dbl.fin (Real.log (lnArg 4700 4700 100))) 4
                  - DoubleArith.powN (Dbl.fin (Real.log (lnArg 4700 4700 100))) 3)
        ∧ ((NTC.ctor 14 (Dbl.fin 4700) (Dbl.fin 4700) (Dbl.fin 3.354016e-3)
              (Dbl.fin 2.569355e-4) (Dbl.fin 2.626311e-6)
              (Dbl.fin 0.675278e-7)).InverseKelvinSum 100
            = (NTC.ctor 14 (Dbl.fin 4700) (Dbl.fin 4700) (Dbl.fin 3.354016e-3)
                (Dbl.fin 2.569355e-4) (Dbl.fin 2.626311e-6)
                (Dbl.fin 0.675278e-7)).DocumentedSum 100
            ↔ (0.675278e-7 : ℝ) = 0 ∨ Real.log (lnArg 4700 4700 100) = 0
              ∨ Real.log (lnArg 4700 4700 100) = 1)) :=
  ⟨⟨by decide, by decide, lnArg_ref_pos 100 (by decide) (by decide)⟩,
    InverseKelvinSum_eq_Documented_add 14 4700 4700 3.354016e-3 2.569355e-4 2.626311e-6
      0.675278e-7 (fun _ => 100) (by decide) (by decide)
      (lnArg_ref_pos 100 (by decide) (by decide))⟩

/-! ## Rounding to binary64 -/

namespace F64

theorem roundEven_floor_le (t : ℝ) : ⌊t⌋ ≤ roundEven t := by
  unfold roundEven
  split_ifs <;> omega

theorem roundEven_le_floor_succ (t : ℝ) : roundEven t ≤ ⌊t⌋ + 1 := by
  unfold roundEven
  split_ifs <;> omega

theorem roundEven_intCast (n : ℤ) : roundEven (n : ℝ) = n := by
  unfold roundEven
  rw [Int.fract_intCast, Int.floor_intCast]
  norm_num

theorem roundEven_mono {t u : ℝ} (h : t ≤ u) : roundEven t ≤ roundEven u := by
  have hf : ⌊t⌋ ≤ ⌊u⌋ := Int.floor_mono h
  rcases hf.lt_or_eq with hlt | heq
  · calc roundEven t ≤ ⌊t⌋ + 1 := roundEven_le_floor_succ t
      _ ≤ ⌊u⌋ := hlt
      _ ≤ roundEven u := roundEven_floor_le u
  · have hfr : Int.fract t ≤ Int.fract u := by
      have e1 := Int.floor_add_fract t
      have e2 := Int.floor_add_fract u
      have : (⌊t⌋ : ℝ) = ⌊u⌋ := by exact_mod_cast heq
      linarith
    unfold roundEven
    rw [heq]
    split_ifs <;> first
      | omega
      | (exfalso; linarith)

/-- The rounded integer is within one half of the argument. -/
theorem abs_roundEven_sub_le (t : ℝ) : |(roundEven t : ℝ) - t| ≤ 1 / 2 := by
  have e1 := Int.floor_add_fract t
  have h0 := Int.fract_nonneg t
  have h1 := Int.fract_lt_one t
  rw [abs_le]
  unfold roundEven
  split_ifs with a b c <;> push_cast <;> constructor <;> linarith

/-- A real within less than one half of an integer rounds to it. -/
theorem roundEven_eq_of_abs_sub_lt (t : ℝ) (n : ℤ) (h : |t - (n : ℝ)| < 1 / 2) :
    roundEven t = n := by
  have h1 := abs_roundEven_sub_le t
  rw [abs_le] at h1
  rw [abs_lt] at h
  have hlt : ((roundEven t - n : ℤ) : ℝ) < 1 := by push_cast; linarith
  have hgt : (-1 : ℝ) < ((roundEven t - n : ℤ) : ℝ) := by push_cast; linarith
  have hlt' : roundEven t - n < 1 := by exact_mod_cast hlt
  have hgt' : -1 < roundEven t - n := by exact_mod_cast hgt
  omega

theorem roundEven_zero : roundEven 0 = 0 := by
  simpa using roundEven_intCast 0

end F64

namespace F64

theorem ulp_pos (r : ℝ) : 0 < ulp r := zpow_pos (by norm_num) _

theorem expo_ge (r : ℝ) : -1022 ≤ expo r := le_max_right _ _

theorem expo_mono {r s : ℝ} (h0 : 0 < r) (h : r ≤ s) : expo r ≤ expo s :=
  max_le_max (Int.log_mono_right h0 h) le_rfl

theorem lt_zpow_expo (r : ℝ) : r < (2 : ℝ) ^ (expo r + 1) := by
  have h := Int.lt_zpow_succ_log_self (b := 2) (by norm_num) r
  have h2 : ((2 : ℕ) : ℝ) ^ (Int.log 2 r + 1) ≤ (2 : ℝ) ^ (expo r + 1) := by
    push_cast
    exact zpow_le_zpow_right₀ (by norm_num) (by unfold expo; have := le_max_left (Int.log 2 r) (-1022); omega)
  exact lt_of_lt_of_le h h2

theorem zpow_expo_le {r : ℝ} (h0 : 0 < r) (h : -1022 ≤ Int.log 2 r) : (2 : ℝ) ^ expo r ≤ r := by
  have e : expo r = Int.log 2 r := max_eq_left h
  rw [e]
  have := Int.zpow_log_le_self (b := 2) (by norm_num) h0
  exact_mod_cast this

theorem expo_eq_of {r : ℝ} (h0 : 0 < r) (e : ℤ) (he : -1022 ≤ e) (h1 : (2 : ℝ) ^ e ≤ r)
    (h2 : r < (2 : ℝ) ^ (e + 1)) : expo r = e := by
  have a : e ≤ Int.log 2 r := by
    rw [← Int.zpow_le_iff_le_log (by norm_num) h0]
    exact_mod_cast h1
  have b : Int.log 2 r < e + 1 := by
    rw [← Int.lt_zpow_iff_log_lt (by norm_num) h0]
    exact_mod_cast h2
  unfold expo
  rw [max_eq_left (by omega)]
  omega

theorem expo_eq_sub {r : ℝ} (h0 : 0 < r) (h : r < (2 : ℝ) ^ (-1022 : ℤ)) : expo r = -1022 := by
  have b : Int.log 2 r < -1022 := by
    rw [← Int.lt_zpow_iff_log_lt (by norm_num) h0]
    exact_mod_cast h
  unfold expo
  exact max_eq_right (by omega)

theorem zpow_expo_succ (r : ℝ) : (2 : ℝ) ^ (expo r + 1) = ((2 ^ 53 : ℤ) : ℝ) * ulp r := by
  unfold ulp
  have : expo r + 1 = 53 + (expo r - 52) := by ring
  rw [this, zpow_add₀ (by norm_num)]
  norm_num

theorem zpow_expo (r : ℝ) : (2 : ℝ) ^ expo r = ((2 ^ 52 : ℤ) : ℝ) * ulp r := by
  unfold ulp
  have : expo r = 52 + (expo r - 52) := by ring
  nth_rewrite 1 [this]
  rw [zpow_add₀ (by norm_num)]
  norm_num

theorem rndPos_zero : rndPos 0 = 0 := by
  simp [rndPos, roundEven_zero]

theorem rndPos_nonneg {r : ℝ} (h : 0 ≤ r) : 0 ≤ rndPos r := by
  unfold rndPos
  have h1 : (0 : ℝ) ≤ r / ulp r := div_nonneg h (ulp_pos r).le
  have h2 : (0 : ℤ) ≤ roundEven (r / ulp r) := by
    have := roundEven_mono h1
    rwa [roundEven_zero] at this
  exact mul_nonneg (by exact_mod_cast h2) (ulp_pos r).le

theorem rndPos_le_zpow (r : ℝ) : rndPos r ≤ (2 : ℝ) ^ (expo r + 1) := by
  rw [zpow_expo_succ]
  unfold rndPos
  have h1 : r / ulp r ≤ ((2 ^ 53 : ℤ) : ℝ) := by
    rw [div_le_iff₀ (ulp_pos r), ← zpow_expo_succ]
    exact (lt_zpow_expo r).le
  have h2 := roundEven_mono h1
  rw [roundEven_intCast] at h2
  exact mul_le_mul_of_nonneg_right (by exact_mod_cast h2) (ulp_pos r).le

theorem zpow_le_rndPos {r : ℝ} (h0 : 0 < r) (h : -1022 ≤ Int.log 2 r) :
    (2 : ℝ) ^ expo r ≤ rndPos r := by
  rw [zpow_expo]
  unfold rndPos
  have h1 : ((2 ^ 52 : ℤ) : ℝ) ≤ r / ulp r := by
    rw [le_div_iff₀ (ulp_pos r), ← zpow_expo]
    exact zpow_expo_le h0 h
  have h2 := roundEven_mono h1
  rw [roundEven_intCast] at h2
  exact mul_le_mul_of_nonneg_right (by exact_mod_cast h2) (ulp_pos r).le

/-- Rounding of non-negative reals is monotone. -/
theorem rndPos_mono {r s : ℝ} (h0 : 0 ≤ r) (h : r ≤ s) : rndPos r ≤ rndPos s := by
  rcases h0.lt_or_eq with hpos | hz
  · have he := expo_mono hpos h
    rcases he.lt_or_eq with hlt | heq
    · have hs : 0 < s := lt_of_lt_of_le hpos h
      have hlog : -1022 ≤ Int.log 2 s := by
        by_contra hc
        have : expo s = -1022 := max_eq_right (by omega)
        have := expo_ge r
        omega
      calc rndPos r ≤ (2 : ℝ) ^ (expo r + 1) := rndPos_le_zpow r
        _ ≤ (2 : ℝ) ^ expo s := zpow_le_zpow_right₀ (by norm_num) (by omega)
        _ ≤ rndPos s := zpow_le_rndPos hs hlog
    · unfold rndPos ulp
      rw [heq]
      have hu : (0 : ℝ) < (2 : ℝ) ^ (expo s - 52) := zpow_pos (by norm_num) _
      have h1 : r / (2 : ℝ) ^ (expo s - 52) ≤ s / (2 : ℝ) ^ (expo s - 52) :=
        div_le_div_of_nonneg_right h hu.le
      have h2 := roundEven_mono h1
      exact mul_le_mul_of_nonneg_right (by exact_mod_cast h2) hu.le
  · rw [← hz, rndPos_zero]
    exact rndPos_nonneg (hz ▸ h)

/-- Evaluation of a rounding: in the binade of exponent `e`, a real within less
than half a spacing of `n * 2 ^ (e - 52)` rounds to it. -/
theorem rndPos_eq {r : ℝ} (e : ℤ) (n : ℤ) (he : expo r = e)
    (h : |r / (2 : ℝ) ^ (e - 52) - (n : ℝ)| < 1 / 2) :
    rndPos r = (n : ℝ) * (2 : ℝ) ^ (e - 52) := by
  unfold rndPos ulp
  rw [he, roundEven_eq_of_abs_sub_lt _ n h]

end F64

namespace F64

theorem rnd_of_nonneg {r : ℝ} (h : 0 ≤ r) : rnd r = rndPos r := by
  unfold rnd
  rw [if_neg (not_lt.mpr h)]

theorem rnd_of_neg {r : ℝ} (h : r < 0) : rnd r = -rndPos (-r) := by
  unfold rnd
  rw [if_pos h]

theorem rnd_zero : rnd 0 = 0 := by
  rw [rnd_of_nonneg le_rfl, rndPos_zero]

theorem rnd_neg (r : ℝ) : rnd (-r) = -rnd r := by
  rcases lt_trichotomy r 0 with h | h | h
  · rw [rnd_of_neg h, rnd_of_nonneg (by linarith), neg_neg]
  · rw [h, neg_zero, rnd_zero, neg_zero]
  · rw [rnd_of_neg (by linarith : -r < 0), rnd_of_nonneg h.le, neg_neg]

theorem rnd_nonneg {r : ℝ} (h : 0 ≤ r) : 0 ≤ rnd r := by
  rw [rnd_of_nonneg h]
  exact rndPos_nonneg h

theorem rnd_nonpos {r : ℝ} (h : r ≤ 0) : rnd r ≤ 0 := by
  have := rnd_nonneg (show 0 ≤ -r by linarith)
  rw [rnd_neg] at this
  linarith

/-- Rounding is monotone. -/
theorem rnd_mono {r s : ℝ} (h : r ≤ s) : rnd r ≤ rnd s := by
  rcases lt_or_le r 0 with hr | hr
  · rcases lt_or_le s 0 with hs | hs
    · rw [rnd_of_neg hr, rnd_of_neg hs]
      have := rndPos_mono (show 0 ≤ -s by linarith) (show -s ≤ -r by linarith)
      linarith
    · exact le_trans (rnd_nonpos hr.le) (rnd_nonneg hs)
  · rw [rnd_of_nonneg hr, rnd_of_nonneg (le_trans hr h)]
    exact rndPos_mono hr h

theorem rnd_le_of_le {r b : ℝ} (hb : rnd b = b) (h : r ≤ b) : rnd r ≤ b := by
  have := rnd_mono h
  rwa [hb] at this

theorem le_rnd_of_le {r b : ℝ} (hb : rnd b = b) (h : b ≤ r) : b ≤ rnd r := by
  have := rnd_mono h
  rwa [hb] at this

/-- Powers of two from `2 ^ (-1074)` on are fixed by rounding. -/
theorem rnd_zpow (k : ℤ) (hk : -1074 ≤ k) : rnd ((2 : ℝ) ^ k) = (2 : ℝ) ^ k := by
  have hpos : (0 : ℝ) < (2 : ℝ) ^ k := zpow_pos (by norm_num) _
  rw [rnd_of_nonneg hpos.le]
  rcases le_or_lt (-1022) k with h | h
  · have he : expo ((2 : ℝ) ^ k) = k :=
      expo_eq_of hpos k h le_rfl (zpow_lt_zpow_right₀ (by norm_num) (by omega))
    rw [rndPos_eq k (2 ^ 52) he]
    · have hk2 : (2 : ℝ) ^ k = (2 : ℝ) ^ (52 : ℤ) * (2 : ℝ) ^ (k - 52) := by
        rw [← zpow_add₀ (by norm_num)]
        congr 1
        ring
      rw [hk2]
      norm_num
    · rw [← zpow_sub₀ (by norm_num)]
      norm_num
  · have he : expo ((2 : ℝ) ^ k) = -1022 :=
      expo_eq_sub hpos (zpow_lt_zpow_right₀ (by norm_num) h)
    obtain ⟨m, hm⟩ : ∃ m : ℕ, k = -1074 + (m : ℤ) := ⟨(k + 1074).toNat, by omega⟩
    have hval : (2 : ℝ) ^ k = ((2 ^ m : ℤ) : ℝ) * (2 : ℝ) ^ (-1022 - 52 : ℤ) := by
      rw [hm, zpow_add₀ (by norm_num), zpow_natCast]
      push_cast
      ring_nf
    rw [rndPos_eq (-1022) (2 ^ m) he]
    · exact hval.symm
    · rw [hval, mul_div_assoc, div_self (zpow_pos (by norm_num) _).ne']
      norm_num

theorem rnd_neg_zpow (k : ℤ) (hk : -1074 ≤ k) : rnd (-(2 : ℝ) ^ k) = -(2 : ℝ) ^ k := by
  rw [rnd_neg, rnd_zpow k hk]

theorem rnd_one : rnd 1 = 1 := by
  simpa using rnd_zpow 0 (by norm_num)

/-- A positive rounded value is at least the least positive binary64 number. -/
theorem rnd_pos_ge {r : ℝ} (h : 0 < rnd r) : (2 : ℝ) ^ (-1074 : ℤ) ≤ rnd r := by
  rcases lt_or_le r 0 with hr | hr
  · have := rnd_nonpos hr.le
    linarith
  · rw [rnd_of_nonneg hr] at h ⊢
    unfold rndPos at h ⊢
    have hu := ulp_pos r
    have hn : (0 : ℝ) < (roundEven (r / ulp r) : ℝ) := by
      by_contra hc
      have := mul_nonpos_of_nonpos_of_nonneg (not_lt.mp hc) hu.le
      linarith
    have hn' : (1 : ℤ) ≤ roundEven (r / ulp r) := by
      have : (0 : ℤ) < roundEven (r / ulp r) := by exact_mod_cast hn
      omega
    have hn'' : (1 : ℝ) ≤ (roundEven (r / ulp r) : ℝ) := by exact_mod_cast hn'
    have hul : (2 : ℝ) ^ (-1074 : ℤ) ≤ ulp r := by
      unfold ulp
      exact zpow_le_zpow_right₀ (by norm_num) (by have := expo_ge r; omega)
    calc (2 : ℝ) ^ (-1074 : ℤ) ≤ ulp r := hul
      _ = 1 * ulp r := (one_mul _).symm
      _ ≤ (roundEven (r / ulp r) : ℝ) * ulp r := mul_le_mul_of_nonneg_right hn'' hu.le

theorem round_of_lt {r : ℝ} (h1 : -(2 : ℝ) ^ (1024 : ℤ) < rnd r)
    (h2 : rnd r < (2 : ℝ) ^ (1024 : ℤ)) : round r = fin (rnd r) := by
  unfold round
  rw [if_neg (not_le.mpr h2), if_neg (not_le.mpr h1)]

/-- A real between two binary64 bounds rounds to a finite value between them. -/
theorem round_between {r lo hi : ℝ} (hlo : rnd lo = lo) (hhi : rnd hi = hi)
    (h1 : -(2 : ℝ) ^ (1024 : ℤ) < lo) (h2 : hi < (2 : ℝ) ^ (1024 : ℤ))
    (hl : lo ≤ r) (hh : r ≤ hi) : Between (round r) lo hi := by
  have a := le_rnd_of_le hlo hl
  have b := rnd_le_of_le hhi hh
  exact ⟨rnd r, round_of_lt (by linarith) (by linarith), a, b⟩

theorem round_zero : round 0 = fin 0 := by
  have := round_of_lt (r := 0) (by rw [rnd_zero]; norm_num) (by rw [rnd_zero]; norm_num)
  rwa [rnd_zero] at this

theorem round_one : round 1 = fin 1 := by
  have := round_of_lt (r := 1) (by rw [rnd_one]; norm_num) (by rw [rnd_one]; norm_num)
  rwa [rnd_one] at this

/-- A finite binary64 value is unchanged by rounding. -/
theorem round_of_isDouble {a : ℝ} (h : IsDouble a) : round a = fin a := by
  have h2 := abs_lt.mp h.2
  have := round_of_lt (r := a) (by rw [h.1]; exact h2.1) (by rw [h.1]; exact h2.2)
  rwa [h.1] at this

end F64

namespace F64

theorem mul_round (a b : ℝ) : (fin a * fin b : F64) = round (a * b) := rfl

theorem add_round (a b : ℝ) : (fin a + fin b : F64) = round (a + b) := rfl

theorem sub_round (a b : ℝ) : (fin a - fin b : F64) = round (a - b) := by
  show round (a + -b) = round (a - b)
  rw [sub_eq_add_neg]

theorem div_round (a b : ℝ) (hb : b ≠ 0) : (fin a / fin b : F64) = round (a / b) := by
  show (if b = 0 then signedInf a else round (a / b)) = round (a / b)
  rw [if_neg hb]

theorem log_round (a : ℝ) (ha : 0 < a) :
    (DoubleArith.log (fin a) : F64) = round (Real.log a) := by
  show (if 0 < a then round (Real.log a) else if a = 0 then ninf else nan) = round (Real.log a)
  rw [if_pos ha]

theorem intCast_round (n : Int) : ((n : Int) : F64) = round (n : ℝ) := rfl

theorem ofScientific_round (m : Nat) (s : Bool) (e : Nat) :
    (OfScientific.ofScientific m s e : F64) = round (OfScientific.ofScientific m s e) := rfl

theorem fin_mul_zero (a : ℝ) : (fin a * fin 0 : F64) = fin 0 := by
  rw [mul_round, mul_zero, round_zero]

theorem zero_mul_fin (a : ℝ) : (fin 0 * fin a : F64) = fin 0 := by
  rw [mul_round, zero_mul, round_zero]

theorem fin_add_zero {a : ℝ} (h : IsDouble a) : (fin a + fin 0 : F64) = fin a := by
  rw [add_round, add_zero, round_of_isDouble h]

/-- Underflow: a non-negative real below half the least positive binary64
number rounds to zero. -/
theorem round_tiny {q : ℝ} (h0 : 0 ≤ q) (h : q < (2 : ℝ) ^ (-1075 : ℤ)) : round q = fin 0 := by
  rcases h0.lt_or_eq with hpos | hz
  · have hlt : q < (2 : ℝ) ^ (-1022 : ℤ) :=
      lt_trans h (zpow_lt_zpow_right₀ (by norm_num) (by norm_num))
    have he := expo_eq_sub hpos hlt
    have hr : rnd q = 0 := by
      rw [rnd_of_nonneg h0, rndPos_eq (-1022) 0 he]
      · simp
      · have hq : q / (2 : ℝ) ^ (-1022 - 52 : ℤ) < 1 / 2 := by
          rw [div_lt_iff₀ (zpow_pos (by norm_num) _)]
          have : (1 / 2 : ℝ) * (2 : ℝ) ^ (-1022 - 52 : ℤ) = (2 : ℝ) ^ (-1075 : ℤ) := by
            have h2 : (1 / 2 : ℝ) = (2 : ℝ) ^ (-1 : ℤ) := by norm_num
            rw [h2, ← zpow_add₀ (by norm_num)]
            norm_num
          rw [this]
          exact h
        have hq0 : 0 ≤ q / (2 : ℝ) ^ (-1022 - 52 : ℤ) :=
          div_nonneg h0 (zpow_pos (by norm_num) _).le
        rw [Int.cast_zero, sub_zero, abs_of_nonneg hq0]
        exact hq
    have := round_of_lt (r := q) (by rw [hr]; norm_num) (by rw [hr]; norm_num)
    rwa [hr] at this
  · rw [← hz, round_zero]

/-- Evaluation of a rounding of a positive real in the binade of exponent `e`. -/
theorem round_at {r : ℝ} (e n : ℤ) (hr : 0 < r) (he : -1022 ≤ e) (h1 : (2 : ℝ) ^ e ≤ r)
    (h2 : r < (2 : ℝ) ^ (e + 1)) (h : |r / (2 : ℝ) ^ (e - 52) - (n : ℝ)| < 1 / 2)
    (hn : 0 ≤ n) (hfin : (n : ℝ) * (2 : ℝ) ^ (e - 52) < (2 : ℝ) ^ (1024 : ℤ)) :
    round r = fin ((n : ℝ) * (2 : ℝ) ^ (e - 52)) := by
  have hx : rnd r = (n : ℝ) * (2 : ℝ) ^ (e - 52) := by
    rw [rnd_of_nonneg hr.le]
    exact rndPos_eq e n (expo_eq_of hr e he h1 h2) h
  have hnn : (0 : ℝ) ≤ (n : ℝ) * (2 : ℝ) ^ (e - 52) :=
    mul_nonneg (by exact_mod_cast hn) (zpow_pos (by norm_num) _).le
  have := round_of_lt (r := r) (by rw [hx]; have : (0 : ℝ) < (2 : ℝ) ^ (1024 : ℤ) := by positivity
                                   linarith) (by rw [hx]; exact hfin)
  rwa [hx] at this

/-- Conversion of an `int` in `[1, 1022]`: a finite value in `[1, 1024]`. -/
theorem intCast_between (n : Int) (h0 : 1 ≤ n) (h1 : n ≤ 1022) :
    Between ((n : Int) : F64) 1 1024 := by
  rw [intCast_round]
  have a : (1 : ℝ) ≤ (n : ℝ) := by exact_mod_cast h0
  have b : (n : ℝ) ≤ 1024 := by
    have : n ≤ 1024 := by omega
    exact_mod_cast this
  have r1024 : rnd 1024 = 1024 := by
    have := rnd_zpow 10 (by norm_num)
    norm_num at this
    exact this
  exact round_between rnd_one r1024 (by norm_num) (by norm_num) a b

end F64

/-- Powers of two as bounds: the value of `2 ^ k` is fixed by rounding and finite. -/
theorem F64.round_between_zpow {r : ℝ} (j k : ℤ) (hj : -1074 ≤ j) (hk1 : -1074 ≤ k)
    (hk : k < 1024) (hl : (2 : ℝ) ^ j ≤ r) (hh : r ≤ (2 : ℝ) ^ k) :
    F64.Between (F64.round r) ((2 : ℝ) ^ j) ((2 : ℝ) ^ k) := by
  have hp : (0 : ℝ) < (2 : ℝ) ^ j := zpow_pos (by norm_num) _
  have h1024 : (0 : ℝ) < (2 : ℝ) ^ (1024 : ℤ) := zpow_pos (by norm_num) _
  exact F64.round_between (F64.rnd_zpow j hj) (F64.rnd_zpow k hk1) (by linarith)
    (zpow_lt_zpow_right₀ (by norm_num) hk) hl hh

/-- C6 (counterexample): in binary64, with the least positive double as `RRef`
(which is `> 0`) and the reading 1, the computed resistance
`RRef * adc / (1023 - adc)` underflows to `0`: it is not strictly positive. -/
theorem Resistance_underflow :
    (0 : ℝ) < (2 : ℝ) ^ (-1074 : ℤ) ∧ F64.IsDouble ((2 : ℝ) ^ (-1074 : ℤ))
      ∧ (0 : Int) < 1 ∧ (1 : Int) < 1023
      ∧ (NTC.ctor 14 (F64.fin ((2 : ℝ) ^ (-1074 : ℤ))) (F64.fin 1) (F64.fin 0) (F64.fin 0)
          (F64.fin 0) (F64.fin 0)).Resistance 1 = F64.fin 0
      ∧ ¬ F64.IsPos ((NTC.ctor 14 (F64.fin ((2 : ℝ) ^ (-1074 : ℤ))) (F64.fin 1) (F64.fin 0)
          (F64.fin 0) (F64.fin 0) (F64.fin 0)).Resistance 1) := by
  have hpos : (0 : ℝ) < (2 : ℝ) ^ (-1074 : ℤ) := zpow_pos (by norm_num) _
  have hdbl : F64.IsDouble ((2 : ℝ) ^ (-1074 : ℤ)) := by
    refine ⟨F64.rnd_zpow _ (by norm_num), ?_⟩
    rw [abs_of_pos hpos]
    exact zpow_lt_zpow_right₀ (by norm_num) (by norm_num)
  obtain ⟨d, hd, d1, _⟩ : F64.Between (((1022 : Int) : Int) : F64) ((2 : ℝ) ^ (9 : ℤ))
      ((2 : ℝ) ^ (10 : ℤ)) := by
    rw [F64.intCast_round]
    exact F64.round_between_zpow 9 10 (by norm_num) (by norm_num) (by norm_num)
      (by norm_num) (by norm_num)
  have d1' : (512 : ℝ) ≤ d := by
    norm_num at d1
    exact d1
  have hres : (NTC.ctor 14 (F64.fin ((2 : ℝ) ^ (-1074 : ℤ))) (F64.fin 1) (F64.fin 0) (F64.fin 0)
      (F64.fin 0) (F64.fin 0)).Resistance 1 = F64.fin 0 := by
    have h1 : (((1 : Int) : Int) : F64) = F64.fin 1 := by
      rw [F64.intCast_round]
      simpa using F64.round_one
    have hd' : (((1023 - 1 : Int) : Int) : F64) = F64.fin d := hd
    simp only [NTC.Resistance, NTC.ctor, h1, hd', F64.mul_round, mul_one,
      F64.round_of_isDouble hdbl]
    rw [F64.div_round _ _ (by linarith)]
    apply F64.round_tiny (div_nonneg hpos.le (by linarith))
    rw [div_lt_iff₀ (by linarith)]
    have e : (2 : ℝ) ^ (-1074 : ℤ) = (2 : ℝ) ^ (-1075 : ℤ) * 2 := by
      rw [show (-1074 : ℤ) = -1075 + 1 by norm_num, zpow_add₀ (by norm_num)]
      norm_num
    rw [e]
    have hq : (0 : ℝ) < (2 : ℝ) ^ (-1075 : ℤ) := zpow_pos (by norm_num) _
    nlinarith
  refine ⟨hpos, hdbl, by decide, by decide, hres, ?_⟩
  rw [hres]
  rintro (h | ⟨v, hv, hv0⟩)
  · exact F64.noConfusion h
  · have := F64.fin.inj hv
    linarith

/-- A real at or above a power of two rounds to `+∞` or to a finite value at
or above that power. -/
theorem F64.round_ge_zpow {r : ℝ} (j : ℤ) (hj : -1074 ≤ j) (h : (2 : ℝ) ^ j ≤ r) :
    F64.round r = F64.pinf ∨ ∃ t : ℝ, F64.round r = F64.fin t ∧ (2 : ℝ) ^ j ≤ t := by
  have hge := F64.le_rnd_of_le (F64.rnd_zpow j hj) h
  have hp : (0 : ℝ) < (2 : ℝ) ^ j := zpow_pos (by norm_num) _
  have h1024 : (0 : ℝ) < (2 : ℝ) ^ (1024 : ℤ) := zpow_pos (by norm_num) _
  unfold F64.round
  split_ifs with h1 h2
  · exact Or.inl rfl
  · exfalso
    linarith
  · exact Or.inr ⟨_, rfl, hge⟩

/-- C6 (amended): in binary64, for a profile with a finite `RRef >= 2^(-500)`
and a reading `0 < adc < 1023`, the divisor `1023 - adc` is not zero and the
computed resistance is strictly positive (a positive finite double, or `+∞` when
the product overflows); with a finite `0 < R25 <= 2^500` the argument
`Resistance / R25` of the logarithm is strictly positive as well. -/
theorem Resistance_pos_in_range (self : NTC F64) (RRef : ℝ) (hR : self._RRef = F64.fin RRef)
    (hlo : (2 : ℝ) ^ (-500 : ℤ) ≤ RRef) (adc : Int) (h0 : 0 < adc) (h1 : adc < 1023) :
    1023 - adc ≠ 0 ∧ F64.IsPos (self.Resistance adc) ∧
      ∀ R25 : ℝ, self._NTC_R25 = F64.fin R25 → 0 < R25 → R25 ≤ (2 : ℝ) ^ (500 : ℤ) →
        F64.IsPos (self.Resistance adc / self._NTC_R25) := by
  obtain ⟨a, ha, a1, a2⟩ := F64.intCast_between adc (by omega) (by omega)
  obtain ⟨d, hd, d1, d2⟩ := F64.intCast_between (1023 - adc) (by omega) (by omega)
  have hRpos : (0 : ℝ) < RRef := lt_of_lt_of_le (zpow_pos (by norm_num) _) hlo
  have hdpos : (0 : ℝ) < d := by linarith
  have e500 : (2 : ℝ) ^ (-500 : ℤ) = (2 : ℝ) ^ (-510 : ℤ) * 1024 := by
    rw [show (-500 : ℤ) = -510 + 10 by norm_num, zpow_add₀ (by norm_num)]
    norm_num
  have hp510 : (0 : ℝ) < (2 : ℝ) ^ (-510 : ℤ) := zpow_pos (by norm_num) _
  have hprod : (2 : ℝ) ^ (-500 : ℤ) ≤ RRef * a :=
    calc (2 : ℝ) ^ (-500 : ℤ) ≤ RRef := hlo
      _ = RRef * 1 := (mul_one _).symm
      _ ≤ RRef * a := mul_le_mul_of_nonneg_left a1 hRpos.le
  have hres : self.Resistance adc = F64.pinf
      ∨ ∃ v : ℝ, self.Resistance adc = F64.fin v ∧ (2 : ℝ) ^ (-510 : ℤ) ≤ v := by
    have hval : self.Resistance adc = F64.round (RRef * a) / F64.fin d := by
      simp only [NTC.Resistance, hR, ha, hd, F64.mul_round]
    rw [hval]
    rcases F64.round_ge_zpow (-500) (by norm_num) hprod with hp | ⟨p, hp, p1⟩
    · left
      rw [hp]
      show (if 0 ≤ d then F64.pinf else F64.ninf) = F64.pinf
      rw [if_pos hdpos.le]
    · rw [hp, F64.div_round _ _ hdpos.ne']
      apply F64.round_ge_zpow (-510) (by norm_num)
      rw [le_div_iff₀ hdpos]
      calc (2 : ℝ) ^ (-510 : ℤ) * d ≤ (2 : ℝ) ^ (-510 : ℤ) * 1024 :=
            mul_le_mul_of_nonneg_left d2 hp510.le
        _ = (2 : ℝ) ^ (-500 : ℤ) := e500.symm
        _ ≤ p := p1
  refine ⟨by omega, ?_, ?_⟩
  · rcases hres with h | ⟨v, hv, v1⟩
    · exact Or.inl h
    · exact Or.inr ⟨v, hv, lt_of_lt_of_le hp510 v1⟩
  · intro R25 h25 q0 q2
    rcases hres with h | ⟨v, hv, v1⟩
    · left
      rw [h, h25]
      show (if 0 ≤ R25 then F64.pinf else F64.ninf) = F64.pinf
      rw [if_pos q0.le]
    · rw [hv, h25, F64.div_round _ _ q0.ne']
      rcases F64.round_ge_zpow (r := v / R25) (-1010) (by norm_num) (by
        rw [le_div_iff₀ q0]
        calc (2 : ℝ) ^ (-1010 : ℤ) * R25 ≤ (2 : ℝ) ^ (-1010 : ℤ) * (2 : ℝ) ^ (500 : ℤ) :=
              mul_le_mul_of_nonneg_left q2 (zpow_pos (by norm_num) _).le
          _ = (2 : ℝ) ^ (-510 : ℤ) := by
              rw [← zpow_add₀ (by norm_num)]
              norm_num
          _ ≤ v := v1) with h | ⟨w, hw, w1⟩
      · exact Or.inl h
      · exact Or.inr ⟨w, hw, lt_of_lt_of_le (zpow_pos (by norm_num) _) w1⟩

/-- Witness of C6 (amended): `RRef = R25 = 4700` on pin 14 and the reading 1. -/
theorem Resistance_pos_in_range_witness :
    ((NTC.ctor 14 (F64.fin 4700) (F64.fin 4700) (F64.fin 0) (F64.fin 0) (F64.fin 0)
          (F64.fin 0))._RRef = F64.fin 4700
        ∧ (2 : ℝ) ^ (-500 : ℤ) ≤ 4700 ∧ (0 : Int) < 1 ∧ (1 : Int) < 1023) ∧
      ((1023 : Int) - 1 ≠ 0
        ∧ F64.IsPos ((NTC.ctor 14 (F64.fin 4700) (F64.fin 4700) (F64.fin 0) (F64.fin 0)
            (F64.fin 0) (F64.fin 0)).Resistance 1)
        ∧ ∀ R25 : ℝ, (NTC.ctor 14 (F64.fin 4700) (F64.fin 4700) (F64.fin 0) (F64.fin 0)
              (F64.fin 0) (F64.fin 0))._NTC_R25 = F64.fin R25 → 0 < R25 →
            R25 ≤ (2 : ℝ) ^ (500 : ℤ) →
            F64.IsPos ((NTC.ctor 14 (F64.fin 4700) (F64.fin 4700) (F64.fin 0) (F64.fin 0)
                (F64.fin 0) (F64.fin 0)).Resistance 1
              / (NTC.ctor 14 (F64.fin 4700) (F64.fin 4700) (F64.fin 0) (F64.fin 0)
                (F64.fin 0) (F64.fin 0))._NTC_R25)) :=
  have hlo : (2 : ℝ) ^ (-500 : ℤ) ≤ 4700 :=
    le_trans (zpow_le_one_of_nonpos₀ (by norm_num) (by norm_num)) (by norm_num)
  ⟨⟨rfl, hlo, by decide, by decide⟩,
    Resistance_pos_in_range _ 4700 rfl hlo 1 (by decide) (by decide)⟩

/-- A positive real of the form `n * 2 ^ (e - 52)` in the binade of exponent `e`
is a finite binary64 value. -/
theorem F64.isDouble_of_eq {r : ℝ} (e n : ℤ) (hr0 : 0 < r) (he : -1022 ≤ e) (he2 : e < 1024)
    (h1 : (2 : ℝ) ^ e ≤ r) (h2 : r < (2 : ℝ) ^ (e + 1))
    (hr : r = (n : ℝ) * (2 : ℝ) ^ (e - 52)) : F64.IsDouble r := by
  have hu : (0 : ℝ) < (2 : ℝ) ^ (e - 52) := zpow_pos (by norm_num) _
  constructor
  · rw [F64.rnd_of_nonneg hr0.le, F64.rndPos_eq e n (F64.expo_eq_of hr0 e he h1 h2)]
    · exact hr.symm
    · rw [hr, mul_div_assoc, div_self hu.ne', mul_one, sub_self, abs_zero]
      norm_num
  · rw [abs_of_pos hr0]
    exact lt_of_lt_of_le h2 (zpow_le_zpow_right₀ (by norm_num) (by omega))

/-- C12 (amended): in binary64, for a profile with finite `B1`, `C1`, `D1`, a
finite non-zero double `A1` and a finite `R25 > 0`, and a reading
`0 < adc < 1023` for which the resistance computed by the code equals `R25`,
`NTC::Temperature` returns `1 / A1 - 273.15` as evaluated in binary64 (the
reciprocal rounded, then the difference rounded), whatever `B1`, `C1`, `D1` are. -/
theorem Temperature_at_computed_R25 (self : NTC F64) (a b c d q : ℝ) (analogRead : Int → Int)
    (hA : self._NTC_A1 = F64.fin a) (ha : F64.IsDouble a) (ha0 : a ≠ 0)
    (hB : self._NTC_B1 = F64.fin b) (hC : self._NTC_C1 = F64.fin c)
    (hD : self._NTC_D1 = F64.fin d) (h25 : self._NTC_R25 = F64.fin q) (hq : 0 < q)
    (h0 : 0 < analogRead self._APin) (h1 : analogRead self._APin < 1023)
    (heq : self.Resistance (analogRead self._APin) = self._NTC_R25) :
    (self.Temperature analogRead).1 = F64.round (1 / a) - 273.15 := by
  have hx : DoubleArith.log (self.Resistance (analogRead self._APin) / self._NTC_R25)
      = F64.fin 0 := by
    rw [heq, h25, F64.div_round _ _ hq.ne', div_self hq.ne', F64.round_one,
      F64.log_round _ one_pos, Real.log_one, F64.round_zero]
  have h1' : (((1 : Int) : Int) : F64) = F64.fin 1 := by
    rw [F64.intCast_round]
    simpa using F64.round_one
  simp only [NTC.Temperature, if_neg h1.ne, if_neg h0.ne', hx, hA, hB, hC, hD,
    F64.fin_mul_zero, F64.fin_add_zero ha, h1']
  rw [F64.div_round _ _ ha0]

theorem F64.isDouble_341 : F64.IsDouble (341 : ℝ) :=
  F64.isDouble_of_eq 8 (341 * 2 ^ 44) (by norm_num) (by norm_num) (by norm_num)
    (by norm_num) (by norm_num) (by norm_num)

theorem F64.isDouble_682 : F64.IsDouble (682 : ℝ) :=
  F64.isDouble_of_eq 9 (341 * 2 ^ 44) (by norm_num) (by norm_num) (by norm_num)
    (by norm_num) (by norm_num) (by norm_num)

theorem F64.intCast_341 : (((341 : Int) : Int) : F64) = F64.fin 341 := by
  rw [F64.intCast_round]
  simpa using F64.round_of_isDouble F64.isDouble_341

theorem F64.intCast_682 : (((1023 - 341 : Int) : Int) : F64) = F64.fin 682 := by
  rw [F64.intCast_round]
  simpa using F64.round_of_isDouble F64.isDouble_682

theorem F64.intCast_one : (((1 : Int) : Int) : F64) = F64.fin 1 := by
  rw [F64.intCast_round]
  simpa using F64.round_one

/-- With `RRef = 2` and the reading 341 the resistance computed in binary64 is
exactly `1`: `2 * 341 = 682` and `682 / 682 = 1` without rounding. -/
theorem Resistance_341 (self : NTC F64) (hR : self._RRef = F64.fin 2) :
    self.Resistance 341 = F64.fin 1 := by
  simp only [NTC.Resistance, hR, F64.intCast_341, F64.intCast_682, F64.mul_round]
  have e : (2 : ℝ) * 341 = 682 := by norm_num
  rw [e, F64.round_of_isDouble F64.isDouble_682, F64.div_round _ _ (by norm_num),
    div_self (by norm_num), F64.round_one]

theorem F64.isDouble_zpow (k : ℤ) (h1 : -1074 ≤ k) (h2 : k < 1024) :
    F64.IsDouble ((2 : ℝ) ^ k) := by
  refine ⟨F64.rnd_zpow k h1, ?_⟩
  rw [abs_of_pos (zpow_pos (by norm_num) _)]
  exact zpow_lt_zpow_right₀ (by norm_num) h2

/-- Witness of C12 (amended): `RRef = 2`, `R25 = 1`, `A1 = 2^(-8)`,
`B1 = C1 = D1 = 1` and the reading 341, for which the computed resistance is 1. -/
theorem Temperature_at_computed_R25_witness :
    ((NTC.ctor 14 (F64.fin 2) (F64.fin 1) (F64.fin ((2 : ℝ) ^ (-8 : ℤ))) (F64.fin 1) (F64.fin 1)
          (F64.fin 1))._NTC_A1 = F64.fin ((2 : ℝ) ^ (-8 : ℤ))
        ∧ F64.IsDouble ((2 : ℝ) ^ (-8 : ℤ)) ∧ (2 : ℝ) ^ (-8 : ℤ) ≠ 0 ∧ (0 : ℝ) < 1
        ∧ (0 : Int) < (fun _ : Int => (341 : Int)) 14
        ∧ (fun _ : Int => (341 : Int)) 14 < 1023
        ∧ (NTC.ctor 14 (F64.fin 2) (F64.fin 1) (F64.fin ((2 : ℝ) ^ (-8 : ℤ))) (F64.fin 1)
            (F64.fin 1) (F64.fin 1)).Resistance 341
          = (NTC.ctor 14 (F64.fin 2) (F64.fin 1) (F64.fin ((2 : ℝ) ^ (-8 : ℤ))) (F64.fin 1)
            (F64.fin 1) (F64.fin 1))._NTC_R25) ∧
      ((NTC.ctor 14 (F64.fin 2) (F64.fin 1) (F64.fin ((2 : ℝ) ^ (-8 : ℤ))) (F64.fin 1) (F64.fin 1)
          (F64.fin 1)).Temperature (fun _ => 341)).1
        = F64.round (1 / (2 : ℝ) ^ (-8 : ℤ)) - 273.15 :=
  ⟨⟨rfl, F64.isDouble_zpow _ (by norm_num) (by norm_num), (zpow_pos (by norm_num) _).ne',
      one_pos, by decide, by decide, Resistance_341 _ rfl⟩,
    Temperature_at_computed_R25 _ ((2 : ℝ) ^ (-8 : ℤ)) 1 1 1 1 (fun _ => 341) rfl
      (F64.isDouble_zpow _ (by norm_num) (by norm_num)) (zpow_pos (by norm_num) _).ne'
      rfl rfl rfl rfl one_pos (by decide) (by decide) (Resistance_341 _ rfl)⟩

/-- C12 (counterexample): `RRef = 2^53 - 1`, `R25 = 2^52 - 1/2`, `A1 = 2^(-10)`,
`B1 = 2^60`, `C1 = D1 = 0` and the reading 341.  All are finite doubles,
`A1 ≠ 0`, `RRef > 0`, `R25 > 0`, and the divider resistance
`RRef * 341 / (1023 - 341)` equals `R25` exactly; but in binary64 the product
`RRef * 341` is rounded, the computed resistance is `2^52 - 1`, and the returned
value is at most `-256`, whereas `1 / A1 - 273.15 = 750.85`.  Second input:
`RRef = 2`, `R25 = 1`, `A1 = 2^(-8)`, `B1 = +∞`, `C1 = D1 = 0`, reading 341: the
computed resistance equals `R25`, `x = 0`, and the returned value is NaN
(`∞ * 0`), so the coefficients have to be finite. -/
theorem Temperature_at_R25_rounded :
    F64.IsDouble ((2 : ℝ) ^ 53 - 1) ∧ F64.IsDouble ((2 : ℝ) ^ 52 - 1 / 2)
      ∧ F64.IsDouble ((2 : ℝ) ^ (-10 : ℤ)) ∧ (2 : ℝ) ^ (-10 : ℤ) ≠ 0
      ∧ (0 : ℝ) < (2 : ℝ) ^ 53 - 1 ∧ (0 : ℝ) < (2 : ℝ) ^ 52 - 1 / 2
      ∧ ((2 : ℝ) ^ 53 - 1) * ((341 : Int) : ℝ) / (((1023 - 341 : Int) : Int) : ℝ)
          = (2 : ℝ) ^ 52 - 1 / 2
      ∧ (NTC.ctor 14 (F64.fin ((2 : ℝ) ^ 53 - 1)) (F64.fin ((2 : ℝ) ^ 52 - 1 / 2))
            (F64.fin ((2 : ℝ) ^ (-10 : ℤ))) (F64.fin ((2 : ℝ) ^ (60 : ℤ))) (F64.fin 0)
            (F64.fin 0)).Resistance 341 = F64.fin ((2 : ℝ) ^ 52 - 1)
      ∧ (∃ t : ℝ, ((NTC.ctor 14 (F64.fin ((2 : ℝ) ^ 53 - 1)) (F64.fin ((2 : ℝ) ^ 52 - 1 / 2))
            (F64.fin ((2 : ℝ) ^ (-10 : ℤ))) (F64.fin ((2 : ℝ) ^ (60 : ℤ))) (F64.fin 0)
            (F64.fin 0)).Temperature (fun _ => 341)).1 = F64.fin t ∧ t ≤ -256)
      ∧ (750 : ℝ) < 1 / (2 : ℝ) ^ (-10 : ℤ) - 273.15
      ∧ (NTC.ctor 14 (F64.fin 2) (F64.fin 1) (F64.fin ((2 : ℝ) ^ (-8 : ℤ))) F64.pinf (F64.fin 0)
            (F64.fin 0)).Resistance 341 = F64.fin 1
      ∧ ((NTC.ctor 14 (F64.fin 2) (F64.fin 1) (F64.fin ((2 : ℝ) ^ (-8 : ℤ))) F64.pinf (F64.fin 0)
            (F64.fin 0)).Temperature (fun _ => 341)).1 = F64.nan := by
  have dRRef : F64.IsDouble ((2 : ℝ) ^ 53 - 1) :=
    F64.isDouble_of_eq 52 (2 ^ 53 - 1) (by norm_num) (by norm_num) (by norm_num) (by norm_num)
      (by norm_num) (by norm_num)
  have dR25 : F64.IsDouble ((2 : ℝ) ^ 52 - 1 / 2) :=
    F64.isDouble_of_eq 51 (2 ^ 53 - 1) (by norm_num) (by norm_num) (by norm_num) (by norm_num)
      (by norm_num) (by norm_num)
  have dA1 : F64.IsDouble ((2 : ℝ) ^ (-10 : ℤ)) := by
    refine ⟨F64.rnd_zpow _ (by norm_num), ?_⟩
    rw [abs_of_pos (zpow_pos (by norm_num) _)]
    exact zpow_lt_zpow_right₀ (by norm_num) (by norm_num)
  -- the resistance, step by step
  have i341 := F64.intCast_341
  have i682 := F64.intCast_682
  have hprod : F64.round (((2 : ℝ) ^ 53 - 1) * 341) = F64.fin (341 * (2 : ℝ) ^ 53 - 512) := by
    rw [F64.round_at 61 (341 * 2 ^ 44 - 1) (by norm_num) (by norm_num) (by norm_num)
      (by norm_num) (by rw [abs_lt]; constructor <;> norm_num) (by norm_num) (by norm_num)]
    norm_num
  have hquot : F64.round ((341 * (2 : ℝ) ^ 53 - 512) / 682) = F64.fin ((2 : ℝ) ^ 52 - 1) := by
    rw [F64.round_at 51 (2 ^ 53 - 2) (by norm_num) (by norm_num) (by norm_num)
      (by norm_num) (by rw [abs_lt]; constructor <;> norm_num) (by norm_num) (by norm_num)]
    norm_num
  have hres : (NTC.ctor 14 (F64.fin ((2 : ℝ) ^ 53 - 1)) (F64.fin ((2 : ℝ) ^ 52 - 1 / 2))
      (F64.fin ((2 : ℝ) ^ (-10 : ℤ))) (F64.fin ((2 : ℝ) ^ (60 : ℤ))) (F64.fin 0)
      (F64.fin 0)).Resistance 341 = F64.fin ((2 : ℝ) ^ 52 - 1) := by
    simp only [NTC.Resistance, NTC.ctor, i341, i682, F64.mul_round, hprod]
    rw [F64.div_round _ _ (by norm_num), hquot]
  have hinf : ((NTC.ctor 14 (F64.fin 2) (F64.fin 1) (F64.fin ((2 : ℝ) ^ (-8 : ℤ))) F64.pinf
      (F64.fin 0) (F64.fin 0)).Temperature (fun _ => 341)).1 = F64.nan := by
    have hr := Resistance_341 (NTC.ctor 14 (F64.fin 2) (F64.fin 1)
      (F64.fin ((2 : ℝ) ^ (-8 : ℤ))) F64.pinf (F64.fin 0) (F64.fin 0)) rfl
    have e1 : (fun _ : Int => (341 : Int)) (NTC.ctor 14 (F64.fin 2) (F64.fin 1)
        (F64.fin ((2 : ℝ) ^ (-8 : ℤ))) F64.pinf (F64.fin 0) (F64.fin 0))._APin = 341 := rfl
    have n1 : ¬ (341 : Int) = 1023 := by decide
    have n2 : ¬ (341 : Int) = 0 := by decide
    have hx : (DoubleArith.log (F64.fin 1 / F64.fin 1) : F64) = F64.fin 0 := by
      rw [F64.div_round _ _ one_ne_zero, div_one, F64.round_one, F64.log_round _ one_pos,
        Real.log_one, F64.round_zero]
    have m : (F64.pinf * F64.fin 0 : F64) = F64.nan := by
      show F64.signedInf 0 = F64.nan
      unfold F64.signedInf
      rw [if_neg (lt_irrefl 0), if_neg (lt_irrefl 0)]
    have a1 : (F64.fin ((2 : ℝ) ^ (-8 : ℤ)) + F64.nan : F64) = F64.nan := rfl
    have a2 : (F64.nan + F64.fin 0 : F64) = F64.nan := rfl
    have d1 : (F64.fin 1 / F64.nan : F64) = F64.nan := rfl
    have s1 : ∀ y : F64, (F64.nan - y : F64) = F64.nan := by
      intro y
      cases y <;> rfl
    simp only [NTC.Temperature, e1, if_neg n1, if_neg n2, hr]
    simp only [NTC.ctor, hx, m, a1, F64.fin_mul_zero, a2, F64.intCast_one, d1, s1]
  refine ⟨dRRef, dR25, dA1, (zpow_pos (by norm_num) _).ne', by norm_num, by norm_num,
    by norm_num, hres, ?_, by norm_num, Resistance_341 _ rfl, hinf⟩
  -- the argument of the logarithm lies in `[1/2, 1 - 2^(-53)]`
  have dhi : F64.IsDouble (1 - (2 : ℝ) ^ (-53 : ℤ)) :=
    F64.isDouble_of_eq (-1) (2 ^ 53 - 1) (by norm_num) (by norm_num) (by norm_num)
      (by norm_num) (by norm_num) (by norm_num)
  have rhalf : F64.rnd (1 / 2) = 1 / 2 := by
    have := F64.rnd_zpow (-1) (by norm_num)
    norm_num at this
    simpa using this
  obtain ⟨w, hw, w1, w2⟩ : F64.Between
      (F64.fin ((2 : ℝ) ^ 52 - 1) / F64.fin ((2 : ℝ) ^ 52 - 1 / 2)) (1 / 2)
      (1 - (2 : ℝ) ^ (-53 : ℤ)) := by
    rw [F64.div_round _ _ (by norm_num)]
    apply F64.round_between rhalf dhi.1 (by norm_num) (by norm_num)
    · rw [le_div_iff₀ (by norm_num)]
      norm_num
    · rw [div_le_iff₀ (by norm_num)]
      norm_num
  have wpos : 0 < w := by linarith
  -- the logarithm lies in `[-1, -2^(-53)]`
  have rm1 : F64.rnd (-1) = -1 := by rw [F64.rnd_neg, F64.rnd_one]
  obtain ⟨x, hx, x1, x2⟩ : F64.Between (DoubleArith.log (F64.fin w)) (-1)
      (-(2 : ℝ) ^ (-53 : ℤ)) := by
    rw [F64.log_round _ wpos]
    apply F64.round_between rm1 (F64.rnd_neg_zpow _ (by norm_num)) (by norm_num) (by norm_num)
    · have h2 : Real.log (1 / 2) ≤ Real.log w := Real.log_le_log (by norm_num) w1
      have h3 : Real.log (1 / 2) = -Real.log 2 := by
        rw [one_div, Real.log_inv]
      have h4 := Real.log_two_lt_d9
      rw [h3] at h2
      norm_num at h4
      linarith
    · have := Real.log_le_sub_one_of_pos wpos
      linarith
  -- `B1 * x` lies in `[-2^60, -2^7]`
  obtain ⟨bx, hbx, bx1, bx2⟩ : F64.Between (F64.fin ((2 : ℝ) ^ (60 : ℤ)) * F64.fin x)
      (-(2 : ℝ) ^ (60 : ℤ)) (-(2 : ℝ) ^ (7 : ℤ)) := by
    rw [F64.mul_round]
    apply F64.round_between (F64.rnd_neg_zpow _ (by norm_num)) (F64.rnd_neg_zpow _ (by norm_num))
      (by norm_num) (by norm_num)
    · have : (0 : ℝ) < (2 : ℝ) ^ (60 : ℤ) := zpow_pos (by norm_num) _
      nlinarith
    · have e : (2 : ℝ) ^ (7 : ℤ) = (2 : ℝ) ^ (60 : ℤ) * (2 : ℝ) ^ (-53 : ℤ) := by
        rw [← zpow_add₀ (by norm_num)]
        norm_num
      rw [e]
      have : (0 : ℝ) < (2 : ℝ) ^ (60 : ℤ) := zpow_pos (by norm_num) _
      nlinarith
  -- the sum `A1 + B1 * x` lies in `[-2^60, -2^6]`, and adding zero keeps it there
  have sum_step : ∀ u v : ℝ, -(2 : ℝ) ^ (60 : ℤ) ≤ u + v → u + v ≤ -(2 : ℝ) ^ (6 : ℤ) →
      F64.Between (F64.fin u + F64.fin v) (-(2 : ℝ) ^ (60 : ℤ)) (-(2 : ℝ) ^ (6 : ℤ)) := by
    intro u v h1 h2
    rw [F64.add_round]
    exact F64.round_between (F64.rnd_neg_zpow _ (by norm_num)) (F64.rnd_neg_zpow _ (by norm_num))
      (by norm_num) (by norm_num) h1 h2
  obtain ⟨s1, hs1, s11, s12⟩ := sum_step ((2 : ℝ) ^ (-10 : ℤ)) bx
    (by have : (0 : ℝ) < (2 : ℝ) ^ (-10 : ℤ) := zpow_pos (by norm_num) _
        linarith)
    (by norm_num at bx2 ⊢
        linarith)
  obtain ⟨s2, hs2, s21, s22⟩ := sum_step s1 0 (by linarith) (by linarith)
  obtain ⟨s3, hs3, s31, s32⟩ := sum_step s2 0 (by linarith) (by linarith)
  -- the powers of `x` are finite, so their products with `C1 = D1 = 0` are `0`
  have sq_step : ∀ u : ℝ, 0 ≤ u * u → u * u ≤ 1 → F64.Between (F64.fin u * F64.fin u) 0 1 := by
    intro u h1 h2
    rw [F64.mul_round]
    exact F64.round_between F64.rnd_zero F64.rnd_one (by norm_num) (by norm_num) h1 h2
  have xneg : x ≤ 0 := by
    have : (0 : ℝ) < (2 : ℝ) ^ (-53 : ℤ) := zpow_pos (by norm_num) _
    linarith
  obtain ⟨x2', hx2, x21, x22⟩ := sq_step x (mul_self_nonneg x) (by nlinarith)
  obtain ⟨x4, hx4, _, _⟩ := sq_step x2' (mul_self_nonneg x2') (by nlinarith)
  -- the reciprocal lies in `[-1, 0]`
  have h1' : (((1 : Int) : Int) : F64) = F64.fin 1 := by
    rw [F64.intCast_round]
    simpa using F64.round_one
  have s3neg : s3 < 0 := by
    have : (0 : ℝ) < (2 : ℝ) ^ (6 : ℤ) := zpow_pos (by norm_num) _
    linarith
  obtain ⟨u, hu, u1, u2⟩ : F64.Between (F64.fin 1 / F64.fin s3) (-1) 0 := by
    rw [F64.div_round _ _ s3neg.ne]
    apply F64.round_between rm1 F64.rnd_zero (by norm_num) (by norm_num)
    · rw [le_div_iff_of_neg s3neg]
      norm_num at s32
      linarith
    · exact div_nonpos_of_nonneg_of_nonpos (by norm_num) s3neg.le
  -- the literal `273.15` lies in `[256, 512]`
  have r256 : F64.rnd 256 = 256 := by
    have := F64.rnd_zpow 8 (by norm_num)
    norm_num at this
    exact this
  have r512 : F64.rnd 512 = 512 := by
    have := F64.rnd_zpow 9 (by norm_num)
    norm_num at this
    exact this
  obtain ⟨k, hk, k1, k2⟩ : F64.Between (273.15 : F64) 256 512 := by
    show F64.Between (F64.round (273.15 : ℝ)) 256 512
    exact F64.round_between r256 r512 (by norm_num) (by norm_num) (by norm_num) (by norm_num)
  have rm1024 : F64.rnd (-1024) = -1024 := by
    have := F64.rnd_neg_zpow 10 (by norm_num)
    norm_num at this
    exact this
  have rm256 : F64.rnd (-256) = -256 := by rw [F64.rnd_neg, r256]
  obtain ⟨t, ht, _, t2⟩ : F64.Between (F64.fin u - F64.fin k) (-1024) (-256) := by
    rw [F64.sub_round]
    exact F64.round_between rm1024 rm256 (by norm_num) (by norm_num) (by linarith)
      (by linarith)
  refine ⟨t, ?_, t2⟩
  have e1 : (fun _ : Int => (341 : Int)) (NTC.ctor 14 (F64.fin ((2 : ℝ) ^ 53 - 1))
      (F64.fin ((2 : ℝ) ^ 52 - 1 / 2)) (F64.fin ((2 : ℝ) ^ (-10 : ℤ)))
      (F64.fin ((2 : ℝ) ^ (60 : ℤ))) (F64.fin 0) (F64.fin 0))._APin = 341 := rfl
  have n1 : ¬ (341 : Int) = 1023 := by decide
  have n2 : ¬ (341 : Int) = 0 := by decide
  simp only [NTC.Temperature, e1, if_neg n1, if_neg n2, hres]
  simp only [NTC.ctor, hw, hx, hbx, hs1, hx2, F64.zero_mul_fin, hs2, hx4, hs3, h1', hu, hk, ht]

/-- A rounded value that is finite and positive lies in the binary64 range. -/
theorem F64.round_fin_range {r c : ℝ} (h : F64.round r = F64.fin c) (hc : 0 < c) :
    (2 : ℝ) ^ (-1074 : ℤ) ≤ c ∧ c < (2 : ℝ) ^ (1024 : ℤ) := by
  unfold F64.round at h
  split_ifs at h with h1 h2
  have hc' : F64.rnd r = c := F64.fin.inj h
  rw [← hc']
  rw [← hc'] at hc
  exact ⟨F64.rnd_pos_ge hc, not_le.mp h1⟩

/-- A finite positive quotient lies in the binary64 range. -/
theorem F64.div_fin_range (u v : F64) {c : ℝ} (h : u / v = F64.fin c) (hc : 0 < c) :
    (2 : ℝ) ^ (-1074 : ℤ) ≤ c ∧ c < (2 : ℝ) ^ (1024 : ℤ) := by
  change F64.div u v = F64.fin c at h
  cases u with
  | fin a =>
    cases v with
    | fin b =>
      simp only [F64.div] at h
      split_ifs at h with hb
      · unfold F64.signedInf at h
        split_ifs at h
      · exact F64.round_fin_range h hc
    | pinf =>
      simp only [F64.div] at h
      have := F64.fin.inj h
      linarith
    | ninf =>
      simp only [F64.div] at h
      have := F64.fin.inj h
      linarith
    | nan => simp [F64.div] at h
  | pinf =>
    cases v with
    | fin b =>
      simp only [F64.div] at h
      split_ifs at h
    | pinf => simp [F64.div] at h
    | ninf => simp [F64.div] at h
    | nan => simp [F64.div] at h
  | ninf =>
    cases v with
    | fin b =>
      simp only [F64.div] at h
      split_ifs at h
    | pinf => simp [F64.div] at h
    | ninf => simp [F64.div] at h
    | nan => simp [F64.div] at h
  | nan => cases v <;> simp [F64.div] at h

theorem F64.rnd_1024 : F64.rnd 1024 = 1024 := by
  have := F64.rnd_zpow 10 (by norm_num)
  norm_num at this
  exact this

/-- A finite logarithm of a quotient is at most 1024 in absolute value. -/
theorem F64.log_div_bound (u v : F64) {t : ℝ} (h : DoubleArith.log (u / v) = F64.fin t) :
    |t| ≤ 1024 := by
  cases huv : u / v with
  | fin c =>
    rw [huv] at h
    change F64.log (F64.fin c) = F64.fin t at h
    simp only [F64.log] at h
    split_ifs at h with hc hc0
    obtain ⟨c1, c2⟩ := F64.div_fin_range u v huv hc
    have l2a := Real.log_two_gt_d9
    have l2b := Real.log_two_lt_d9
    have hlo : -1024 ≤ Real.log c := by
      have := Real.log_le_log (zpow_pos (by norm_num) _) c1
      rw [Real.log_zpow] at this
      push_cast at this
      norm_num at l2b
      linarith
    have hhi : Real.log c ≤ 1024 := by
      have := Real.log_le_log hc c2.le
      rw [Real.log_zpow] at this
      push_cast at this
      norm_num at l2b
      linarith
    have rm : F64.rnd (-1024) = -1024 := by rw [F64.rnd_neg, F64.rnd_1024]
    obtain ⟨t', ht', t1, t2⟩ := F64.round_between rm F64.rnd_1024 (by norm_num) (by norm_num)
      hlo hhi
    rw [ht'] at h
    have := F64.fin.inj h
    rw [abs_le]
    constructor <;> linarith
  | pinf =>
    rw [huv] at h
    exact F64.noConfusion h
  | ninf =>
    rw [huv] at h
    exact F64.noConfusion h
  | nan =>
    rw [huv] at h
    exact F64.noConfusion h

/-- For a finite `x` of absolute value at most 1024, the third and the fourth
power computed in binary64 are finite. -/
theorem F64.powers_finite (t : ℝ) (ht : |t| ≤ 1024) :
    (∃ p : ℝ, (F64.fin t * F64.fin t) * (F64.fin t * F64.fin t) = F64.fin p)
      ∧ ∃ p : ℝ, (F64.fin t * F64.fin t) * F64.fin t = F64.fin p := by
  rw [abs_le] at ht
  have r20 : F64.rnd ((2 : ℝ) ^ (20 : ℤ)) = (2 : ℝ) ^ (20 : ℤ) := F64.rnd_zpow _ (by norm_num)
  have r40 : F64.rnd ((2 : ℝ) ^ (40 : ℤ)) = (2 : ℝ) ^ (40 : ℤ) := F64.rnd_zpow _ (by norm_num)
  have r30 : F64.rnd ((2 : ℝ) ^ (30 : ℤ)) = (2 : ℝ) ^ (30 : ℤ) := F64.rnd_zpow _ (by norm_num)
  have rm30 : F64.rnd (-(2 : ℝ) ^ (30 : ℤ)) = -(2 : ℝ) ^ (30 : ℤ) :=
    F64.rnd_neg_zpow _ (by norm_num)
  obtain ⟨s, hs, s1, s2⟩ : F64.Between (F64.fin t * F64.fin t) 0 ((2 : ℝ) ^ (20 : ℤ)) := by
    rw [F64.mul_round]
    apply F64.round_between F64.rnd_zero r20 (by norm_num) (by norm_num) (mul_self_nonneg t)
    norm_num
    nlinarith
  norm_num at s2
  constructor
  · obtain ⟨p, hp, _, _⟩ : F64.Between (F64.fin s * F64.fin s) 0 ((2 : ℝ) ^ (40 : ℤ)) := by
      rw [F64.mul_round]
      apply F64.round_between F64.rnd_zero r40 (by norm_num) (by norm_num) (mul_self_nonneg s)
      norm_num
      nlinarith
    exact ⟨p, by rw [hs, hp]⟩
  · obtain ⟨p, hp, _, _⟩ : F64.Between (F64.fin s * F64.fin t) (-(2 : ℝ) ^ (30 : ℤ))
        ((2 : ℝ) ^ (30 : ℤ)) := by
      rw [F64.mul_round]
      apply F64.round_between rm30 r30 (by norm_num) (by norm_num)
      · norm_num
        nlinarith
      · norm_num
        nlinarith
    exact ⟨p, by rw [hs, hp]⟩

/-- Absorption from above: adding a real in `[0, 2^12]` to `2^100` rounds back
to `2^100`. -/
theorem F64.round_absorb_up (y : ℝ) (h0 : 0 ≤ y) (h1 : y ≤ 2 ^ 12) :
    F64.round ((2 : ℝ) ^ 100 + y) = F64.fin ((2 : ℝ) ^ 100) := by
  have h := F64.round_at (r := (2 : ℝ) ^ 100 + y) 100 (2 ^ 52) (by positivity) (by norm_num)
    (by norm_num; linarith) (by norm_num; linarith)
    (by rw [abs_lt]; constructor <;> norm_num <;> linarith) (by norm_num) (by norm_num)
  rw [h]
  norm_num

/-- Absorption from below: adding a real in `[-2^9, -2^6]` to `2^100` rounds
back to `2^100`. -/
theorem F64.round_absorb_down (y : ℝ) (h0 : -2 ^ 9 ≤ y) (h1 : y ≤ -2 ^ 6) :
    F64.round ((2 : ℝ) ^ 100 + y) = F64.fin ((2 : ℝ) ^ 100) := by
  have h := F64.round_at (r := (2 : ℝ) ^ 100 + y) 99 (2 ^ 53) (by norm_num; linarith)
    (by norm_num) (by norm_num; linarith) (by norm_num; linarith)
    (by rw [abs_lt]; constructor <;> norm_num <;> linarith) (by norm_num) (by norm_num)
  rw [h]
  norm_num

/-- The resistance computed in binary64 for `RRef = 1` and the reading 1 is a
finite value in `[2^(-10), 2^(-9)]`, whatever the other fields are. -/
theorem Resistance_one_between (self : NTC F64) (hR : self._RRef = F64.fin 1) :
    F64.Between (self.Resistance 1) ((2 : ℝ) ^ (-10 : ℤ)) ((2 : ℝ) ^ (-9 : ℤ)) := by
  have i1 : (((1 : Int) : Int) : F64) = F64.fin 1 := by
    rw [F64.intCast_round]
    simpa using F64.round_one
  obtain ⟨d, hd, d1, d2⟩ : F64.Between (((1023 - 1 : Int) : Int) : F64) ((2 : ℝ) ^ (9 : ℤ))
      ((2 : ℝ) ^ (10 : ℤ)) := by
    rw [F64.intCast_round]
    exact F64.round_between_zpow 9 10 (by norm_num) (by norm_num) (by norm_num)
      (by norm_num) (by norm_num)
  norm_num at d1 d2
  have hval : self.Resistance 1 = F64.round (1 / d) := by
    simp only [NTC.Resistance, hR, i1, hd, F64.mul_round, mul_one, F64.round_one]
    exact F64.div_round 1 d (by linarith)
  rw [hval]
  apply F64.round_between_zpow _ _ (by norm_num) (by norm_num) (by norm_num)
  · rw [le_div_iff₀ (by linarith)]
    norm_num
    linarith
  · rw [div_le_iff₀ (by linarith)]
    norm_num
    linarith

